import Mathlib

/-!
Verification development for a small MLIR-style IR core consisting of the
SSA value substrate (include/mlir/IR/SSAValue.h) and the constant-folding
pass (lib/Transforms/ConstantFold.cpp).

The first part models the value/use-def ledger.  The second part embeds the
constant-folding pass operation by operation from ConstantFold.cpp.
-/

namespace SSA

abbrev UseId := Nat
abbrev ValueId := Nat
abbrev Ty := Nat

/-- Kinds of SSA values, mirroring the C++ enum SSAValueKind. -/
inductive SSAValueKind where
  | BBArgument
  | InstResult
  | FnArgument
  | StmtResult
  | InductionVar
deriving DecidableEq, Repr

/-- Numeric value of the enum tag, as laid out by the C++ enum. -/
def SSAValueKind.tag : SSAValueKind → Nat
  | .BBArgument => 0
  | .InstResult => 1
  | .FnArgument => 2
  | .StmtResult => 3
  | .InductionVar => 4

/-- Decode a kind tag read back from the 3-bit integer field. -/
def SSAValueKind.decode : Nat → SSAValueKind
  | 0 => .BBArgument
  | 1 => .InstResult
  | 2 => .FnArgument
  | 3 => .StmtResult
  | _ => .InductionVar

/-- An SSAValue stores its type pointer and kind packed in a
PointerIntPair whose integer field is 3 bits wide, so the kind tag is
stored modulo 2^3 = 8 (field typeAndKind in SSAValue.h). -/
structure SSAValue where
  typePtr : Ty
  kindBits : Nat
deriving DecidableEq, Repr

/-- The SSAValue constructor: SSAValue(kind, type) packs both components
into the PointerIntPair. -/
def SSAValue.make (kind : SSAValueKind) (type : Ty) : SSAValue :=
  ⟨type, kind.tag % 8⟩

/-- getKind reads the integer bits back out of the pair. -/
def SSAValue.getKind (v : SSAValue) : SSAValueKind :=
  SSAValueKind.decode v.kindBits

/-- getType reads the pointer component of the pair. -/
def SSAValue.getType (v : SSAValue) : Ty :=
  v.typePtr

/-- Modelled from the spec: the use-def ledger state of IRObjectWithUseList
(declared in UseDefLists.h, which is not part of the two source files).
`uses` lists the live Use records (operand slots), `slotOf` gives the Value
a slot currently references, `ledgerOf` is each Value's use list, `val`
gives each allocated Value's immutable SSAValue payload and `nvals` is the
allocation watermark for value ids. -/
structure UseGraph where
  uses : List UseId
  slotOf : UseId → ValueId
  ledgerOf : ValueId → List UseId
  val : ValueId → SSAValue
  nvals : Nat

/-- Modelled from the spec: the empty graph, before any Operation or
argument has been constructed. -/
def emptyGraph : UseGraph :=
  { uses := []
    slotOf := fun _ => 0
    ledgerOf := fun _ => []
    val := fun _ => SSAValue.make .BBArgument 0
    nvals := 0 }

/-- Modelled from the spec: declaring a new Value (an Operation result or a
block/function argument) allocates a fresh id and records the kind and type
supplied at construction.  The ledger state is untouched. -/
def newValue (g : UseGraph) (kind : SSAValueKind) (type : Ty) : UseGraph :=
  { g with
    val := fun x => if x = g.nvals then SSAValue.make kind type else g.val x
    nvals := g.nvals + 1 }

/-- Modelled from the spec: constructing an operand slot subscribes a fresh
Use record to the referenced Value's ledger (the internal ledger-add
primitive used by Operation construction). -/
def addUse (g : UseGraph) (u : UseId) (v : ValueId) : UseGraph :=
  { g with
    uses := u :: g.uses
    slotOf := fun x => if x = u then v else g.slotOf x
    ledgerOf := fun x => if x = v then u :: g.ledgerOf x else g.ledgerOf x }

/-- Modelled from the spec: destroying an operand slot (during Operation
erasure) detaches its Use record from the referenced Value's ledger. -/
def removeUse (g : UseGraph) (u : UseId) : UseGraph :=
  { g with
    uses := g.uses.erase u
    ledgerOf := fun x => (g.ledgerOf x).erase u }

/-- Modelled from the spec: replaceAllUsesWith rewrites every slot in v's
ledger to reference w, moves those Use records into w's ledger, and leaves
v's ledger empty.  (The underlying C++ loop excludes replacing a value with
itself, which is reflected in the reachability relation below.) -/
def replaceAllUsesWith (g : UseGraph) (v w : ValueId) : UseGraph :=
  { g with
    slotOf := fun u => if g.slotOf u = v then w else g.slotOf u
    ledgerOf := fun x =>
      if x = v then []
      else if x = w then g.ledgerOf w ++ g.ledgerOf v
      else g.ledgerOf x }

/-- One core mutation of the use-def substrate: value creation, operand
slot construction (with a fresh Use record), slot destruction, or
replaceAllUsesWith (whose C++ implementation requires the two values to be
distinct). -/
inductive Step : UseGraph → UseGraph → Prop where
  | newValue (g : UseGraph) (kind : SSAValueKind) (type : Ty) :
      Step g (newValue g kind type)
  | addUse (g : UseGraph) (u : UseId) (v : ValueId) (hu : u ∉ g.uses) :
      Step g (addUse g u v)
  | removeUse (g : UseGraph) (u : UseId) :
      Step g (removeUse g u)
  | rauw (g : UseGraph) (v w : ValueId) (hvw : v ≠ w) :
      Step g (replaceAllUsesWith g v w)

/-- Graph states reachable from a given state by core mutations. -/
inductive ReachableFrom : UseGraph → UseGraph → Prop where
  | refl (g : UseGraph) : ReachableFrom g g
  | step {g g' g'' : UseGraph} :
      ReachableFrom g g' → Step g' g'' → ReachableFrom g g''

/-- Graph states reachable from the empty graph. -/
def Reachable (g : UseGraph) : Prop :=
  ReachableFrom emptyGraph g

/-- Ledger consistency: a Use is in a Value's ledger exactly when it is a
live Use whose slot references that Value; ledgers and the live-use list
hold no duplicates. -/
structure Consistent (g : UseGraph) : Prop where
  mem_ledger : ∀ u v, u ∈ g.ledgerOf v ↔ u ∈ g.uses ∧ g.slotOf u = v
  nodup_ledger : ∀ v, (g.ledgerOf v).Nodup
  nodup_uses : g.uses.Nodup

end SSA

namespace CF

/-!
Embedding of lib/Transforms/ConstantFold.cpp.

A function body is a list of Operations in program order.  An Operation
carries an identity, a kind (either the distinguished constant kind with
its Attribute payload, or a generic opcode), a source location, operand
slots (value ids it reads) and result values (with their types).  Uses are
derived from the operand lists, matching use_empty / replaceAllUsesWith on
this flat representation.  Attributes, types and locations are opaque and
represented by naturals.
-/

abbrev Attr := Nat
abbrev Ty := Nat
abbrev Loc := Nat
abbrev ValueId := Nat

/-- Kind of an Operation: either the distinguished ConstantOp carrying its
Attribute payload, or a generic opcode consulted through the fold
capability. -/
inductive OpKind where
  | constant (value : Attr)
  | generic (code : Nat)
deriving DecidableEq, Repr

/-- An Operation of the function body. -/
structure Op where
  id : Nat
  kind : OpKind
  loc : Loc
  operands : List ValueId
  results : List (ValueId × Ty)
deriving DecidableEq, Repr

/-- A function body: Operations in program order. -/
abbrev Func := List Op

/-- dyn_cast to ConstantOp followed by getValue: the payload when the
Operation is a constant, none otherwise. -/
def Op.constantValue (op : Op) : Option Attr :=
  match op.kind with
  | .constant a => some a
  | .generic _ => none

/-- Whether this Operation defines (produces) the value v. -/
def Op.defines (op : Op) (v : ValueId) : Bool :=
  decide (v ∈ op.results.map Prod.fst)

/-- getDefiningOp: the Operation of the body producing v, if any. -/
def getDefiningOp (f : Func) (v : ValueId) : Option Op :=
  f.find? (fun op => op.defines v)

/-- use_empty for value v: no operand slot of the body references v. -/
def useEmpty (f : Func) (v : ValueId) : Bool :=
  f.all (fun op => decide (v ∉ op.operands))

/-- The Value an existingConstants entry stands for: the (single) result of
a ConstantOp, as produced by the OpPointer-to-Value conversion. -/
def constantResult (op : Op) : ValueId :=
  (op.results.map Prod.fst).headD 0

/-- Rewrite one Operation's operand slots from v to w. -/
def rauwOp (v w : ValueId) (op : Op) : Op :=
  { op with operands := op.operands.map (fun x => if x = v then w else x) }

/-- replaceAllUsesWith at the function level: redirect every operand slot
reading v to read w. -/
def rauw (f : Func) (v w : ValueId) : Func :=
  f.map (rauwOp v w)

/-- The per-opcode fold capability supplied by the operation registry:
given one optional constant payload per operand it yields one payload per
result, or declines. -/
abbrev FoldFn := Nat → List (Option Attr) → Option (List Attr)

/-- The constant payload available for the value v: resolve its defining
Operation and take its payload when that Operation is a ConstantOp; none
is the placeholder for a non-constant value. -/
def operandConstant (f : Func) (v : ValueId) : Option Attr :=
  match getDefiningOp f v with
  | some defOp => defOp.constantValue
  | none => none

/-- Values for operands that are trivial constants, one per operand slot. -/
def operandConstants (f : Func) (op : Op) : List (Option Attr) :=
  op.operands.map (operandConstant f)

/-- State while one Operation is being visited: already-visited prefix,
constants materialized during this visit (the builder inserts them
immediately before the visited Operation), the visited Operation itself,
the unvisited suffix, the existingConstants worklist and the fresh-id
counter used to materialize constants. -/
structure VisitState where
  done : Func
  news : Func
  cur : Op
  rest : Func
  ecs : List ValueId
  fresh : Nat
deriving Repr

/-- The function body as currently seen by the IR during a visit. -/
def VisitState.func (s : VisitState) : Func :=
  s.done ++ s.news ++ s.cur :: s.rest

/-- The ConstantOp materialized by the builder for a folded result: built
at the folded Operation's source location, with the result's type and the
computed payload, and carrying fresh Operation and result-value ids. -/
def frCst (loc : Loc) (rt : ValueId × Ty) (a : Attr) (fresh : Nat) : Op :=
  { id := fresh, kind := .constant a, loc := loc,
    operands := [], results := [(fresh + 1, rt.2)] }

/-- One used-result step of the per-result loop: materialize the constant
immediately before the visited Operation, register its result value in
existingConstants, and replace all uses of the old result with it. -/
def frStep (loc : Loc) (rt : ValueId × Ty) (a : Attr) (s : VisitState) :
    VisitState :=
  { done := rauw s.done rt.1 (s.fresh + 1)
    news := rauw (s.news ++ [frCst loc rt a s.fresh]) rt.1 (s.fresh + 1)
    cur := rauwOp rt.1 (s.fresh + 1) s.cur
    rest := rauw s.rest rt.1 (s.fresh + 1)
    ecs := s.ecs ++ [constantResult (frCst loc rt a s.fresh)]
    fresh := s.fresh + 2 }

/-- The per-result loop of ConstantFold::foldOperation: for each result of
the folded Operation (paired with its computed payload), skip it when it
has no uses; otherwise materialize a ConstantOp at the original location
with the result's type and payload, register it in existingConstants and
replace all uses of the old result with the new constant's result. -/
def foldResults (loc : Loc) :
    List ((ValueId × Ty) × Attr) → VisitState → VisitState
  | [], s => s
  | (rt, a) :: rs, s =>
    if useEmpty s.func rt.1 then
      foldResults loc rs s
    else
      foldResults loc rs (frStep loc rt a s)

/-- The pass state accumulated along the walk: visited body prefix,
existingConstants, opInstsToErase, and the fresh-id counter. -/
structure PassState where
  done : Func
  existingConstants : List ValueId
  toErase : List Nat
  fresh : Nat
deriving DecidableEq, Repr

/-- ConstantFold::foldOperation, as invoked on the Operation at the head of
the unvisited suffix.  A ConstantOp is only remembered in
existingConstants.  Otherwise the fold capability is consulted with the
operand constants; a declined fold leaves everything untouched, and a
successful fold runs the per-result loop and schedules the Operation for
erasure.  The arity assertion is modelled as the fatal outcome none. -/
def foldOperation (fold : FoldFn) (s : PassState) (op : Op) (rest : Func) :
    Option (PassState × Func) :=
  match op.kind with
  | .constant _ =>
      some ({ s with
                done := s.done ++ [op]
                existingConstants :=
                  s.existingConstants ++ [constantResult op] }, rest)
  | .generic code =>
      match fold code (operandConstants (s.done ++ op :: rest) op) with
      | none => some ({ s with done := s.done ++ [op] }, rest)
      | some resultConstants =>
          if resultConstants.length = op.results.length then
            let t := foldResults op.loc (op.results.zip resultConstants)
              { done := s.done, news := [], cur := op, rest := rest,
                ecs := s.existingConstants, fresh := s.fresh }
            some ({ done := t.done ++ t.news ++ [t.cur]
                    existingConstants := t.ecs
                    toErase := s.toErase ++ [op.id]
                    fresh := t.fresh }, t.rest)
          else
            none

/-- The top-down walk over the function body, visiting each Operation in
order; fuel is the number of Operations still to visit (the suffix length
is preserved by foldOperation, so the fuel is exact). -/
def walkAux (fold : FoldFn) : Nat → PassState → Func → Option PassState
  | _, s, [] => some s
  | 0, _, _ :: _ => none
  | fuel + 1, s, op :: rest =>
      match foldOperation fold s op rest with
      | none => none
      | some (s', rest') => walkAux fold fuel s' rest'

/-- Walk the whole body. -/
def walk (fold : FoldFn) (s : PassState) (f : Func) : Option PassState :=
  walkAux fold f.length s f

/-- Operation::erase for the Operation with the given identity. -/
def eraseOp (f : Func) (oid : Nat) : Func :=
  f.filter (fun op => decide (op.id ≠ oid))

/-- One step of the dead-constant sweep: if the registered constant value
has no remaining uses, erase its defining Operation. -/
def sweepConstant (f : Func) (cst : ValueId) : Func :=
  if useEmpty f cst then
    match getDefiningOp f cst with
    | some defOp => eraseOp f defOp.id
    | none => f
  else f

/-- ConstantFold::runOnFunction: clear the worklists, walk the body folding
each Operation, then erase the folded Operations, then run the single
dead-constant sweep over existingConstants.  The result is the transformed
body together with the final pass state. -/
def runOnFunction (fold : FoldFn) (f : Func) (fresh : Nat) :
    Option (Func × PassState) :=
  match walk fold
      { done := [], existingConstants := [], toErase := [], fresh := fresh }
      f with
  | none => none
  | some s =>
      some ((s.existingConstants.foldl sweepConstant
               (s.toErase.foldl eraseOp s.done)), s)

/-- Whether the Operation is of the distinguished constant kind. -/
def Op.isCst (op : Op) : Bool :=
  match op.kind with
  | .constant _ => true
  | .generic _ => false

/-- All ids and value ids mentioned by one Operation are below n. -/
def opBound (op : Op) (n : Nat) : Prop :=
  op.id < n ∧ (∀ v ∈ op.operands, v < n) ∧ (∀ r ∈ op.results, r.1 < n)

/-- All ids and value ids mentioned by the body are below n. -/
def funcBound (f : Func) (n : Nat) : Prop :=
  ∀ op ∈ f, opBound op n

/-- Def-before-use: no Operation reads a value defined by itself or by a
later Operation of the body. -/
def DBU : Func → Prop
  | [] => True
  | q :: l =>
      (∀ w ∈ q.operands, q.defines w = false ∧ ∀ d ∈ l, d.defines w = false) ∧
      DBU l

/-- Operation identities are unique across the body. -/
def NodupIds (f : Func) : Prop :=
  (f.map Op.id).Nodup

/-- Each value has at most one defining Operation in the body. -/
def UniqueDefs (f : Func) : Prop :=
  ∀ d1 ∈ f, ∀ d2 ∈ f, ∀ r ∈ d1.results, d2.defines r.1 = true → d1.id = d2.id

/-- Result values are not repeated within one Operation. -/
def NodupResults (f : Func) : Prop :=
  ∀ op ∈ f, (op.results.map Prod.fst).Nodup

/-- Constant Operations are the distinguished zero-operand single-result
kind. -/
def ConstantsWF (f : Func) : Prop :=
  ∀ op ∈ f, op.isCst = true → op.operands = [] ∧ op.results.length = 1

instance instDecOpBound (op : Op) (n : Nat) : Decidable (opBound op n) := by
  unfold opBound
  infer_instance

instance instDecFuncBound (f : Func) (n : Nat) : Decidable (funcBound f n) := by
  unfold funcBound
  infer_instance

instance instDecDBU : (f : Func) → Decidable (DBU f)
  | [] => isTrue trivial
  | q :: l =>
      have : Decidable (DBU l) := instDecDBU l
      by unfold DBU; infer_instance

instance instDecNodupIds (f : Func) : Decidable (NodupIds f) := by
  unfold NodupIds
  infer_instance

instance instDecUniqueDefs (f : Func) : Decidable (UniqueDefs f) := by
  unfold UniqueDefs
  infer_instance

instance instDecNodupResults (f : Func) : Decidable (NodupResults f) := by
  unfold NodupResults
  infer_instance

instance instDecConstantsWF (f : Func) : Decidable (ConstantsWF f) := by
  unfold ConstantsWF
  infer_instance

/-- A well-formed straight-line SSA body whose ids and values lie below the
fresh-id counter n. -/
structure WF (f : Func) (n : Nat) : Prop where
  bound : funcBound f n
  ids : NodupIds f
  udefs : UniqueDefs f
  nres : NodupResults f
  cwf : ConstantsWF f
  dbu : DBU f

/-- The invariant carried along the walk: the visited prefix plus the
unvisited suffix stay well formed, erase-scheduled ids name generic
Operations whose results are already unused, every visited ConstantOp is
registered, every visited surviving generic Operation declines its fold on
the current body, and registered values are defined only by ConstantOps. -/
structure WInv (fold : FoldFn) (s : PassState) (rest : Func) : Prop where
  bound : funcBound (s.done ++ rest) s.fresh
  dbu : DBU (s.done ++ rest)
  ids : NodupIds (s.done ++ rest)
  udefs : UniqueDefs (s.done ++ rest)
  nres : NodupResults (s.done ++ rest)
  cwf : ConstantsWF (s.done ++ rest)
  teB : ∀ oid ∈ s.toErase, oid < s.fresh
  reg : ∀ c ∈ s.done, c.isCst = true → constantResult c ∈ s.existingConstants
  declined : ∀ q ∈ s.done, ∀ code, q.kind = .generic code →
    q.id ∉ s.toErase →
    fold code (operandConstants (s.done ++ rest) q) = none
  eclean : ∀ oid ∈ s.toErase, ∀ d ∈ s.done ++ rest, d.id = oid →
    (∃ c, d.kind = .generic c) ∧
    ∀ r ∈ d.results, useEmpty (s.done ++ rest) r.1 = true
  ecsDef : ∀ c ∈ s.existingConstants, ∀ d ∈ s.done ++ rest,
    d.defines c = true → d.isCst = true

end CF

namespace EX

/-!
Concrete instances used by witnesses and counterexamples: a small fold
capability (opcode 0 adds two constant operands, every other opcode
declines, as does opcode 0 on a non-constant operand) and the spec's
scenario bodies.
-/

open CF

/-- A concrete fold capability for the executable scenarios. -/
def addFold : FoldFn := fun code ocs =>
  if code = 0 then
    match ocs with
    | [some a, some b] => some [a + b]
    | _ => none
  else none

/-- Scenario-1 body, first constant. -/
def exConst3 : Op :=
  { id := 0, kind := .constant 3, loc := 10, operands := [], results := [(100, 7)] }

/-- Scenario-1 body, second constant. -/
def exConst4 : Op :=
  { id := 1, kind := .constant 4, loc := 11, operands := [], results := [(101, 7)] }

/-- Scenario-1 body, the foldable add. -/
def exAdd : Op :=
  { id := 2, kind := .generic 0, loc := 12, operands := [100, 101], results := [(102, 7)] }

/-- Scenario-1 body, the return reading the sum. -/
def exRet : Op :=
  { id := 3, kind := .generic 99, loc := 13, operands := [102], results := [] }

/-- Scenario 1: const 3; const 4; add; return. -/
def exFunc : Func := [exConst3, exConst4, exAdd, exRet]

/-- Counterexample body: a constant feeding a foldable add. -/
def cxConst3 : Op :=
  { id := 0, kind := .constant 3, loc := 20, operands := [], results := [(100, 7)] }

/-- Counterexample body: the foldable add (both operands constant). -/
def cxAdd : Op :=
  { id := 1, kind := .generic 0, loc := 21, operands := [100, 100], results := [(101, 7)] }

/-- Counterexample body: an unfoldable Operation reading the add's result
and a function argument (value 300 has no defining Operation). -/
def cxMul : Op :=
  { id := 2, kind := .generic 99, loc := 22, operands := [101, 300], results := [(102, 7)] }

/-- Body on which a declined Operation is still rewritten by the pass. -/
def cxFunc : Func := [cxConst3, cxAdd, cxMul]

/-- Scenario 3: a single dead constant. -/
def dcConst : Op :=
  { id := 0, kind := .constant 9, loc := 30, operands := [], results := [(100, 7)] }

/-- Use-graph with two allocated values, for the ledger witnesses. -/
def ssaG0 : SSA.UseGraph :=
  SSA.newValue (SSA.newValue SSA.emptyGraph SSA.SSAValueKind.InstResult 5)
    SSA.SSAValueKind.InstResult 6

/-- Use-graph with one Use record (id 5) whose slot reads value 0. -/
def ssaG1 : SSA.UseGraph := SSA.addUse ssaG0 5 0

/-- Empty pass state with fresh counter 0. -/
def exSt0 : CF.PassState :=
  { done := [], existingConstants := [], toErase := [], fresh := 0 }

/-- Pass state as it stands when scenario 1's add is visited. -/
def exSt2 : CF.PassState :=
  { done := [exConst3, exConst4], existingConstants := [100, 101],
    toErase := [], fresh := 200 }

/-- The constant materialized when scenario 1's add is folded. -/
def exCst7 : CF.Op :=
  { id := 200, kind := .constant 7, loc := 12, operands := [], results := [(201, 7)] }

/-- The return Operation of scenario 1 after the walk redirected its
operand to the materialized constant's result. -/
def exRetAfter : CF.Op :=
  { id := 3, kind := .generic 99, loc := 13, operands := [201], results := [] }

/-- The pass state at the end of scenario 1's walk. -/
def exWalkS : CF.PassState :=
  { done := [exConst3, exConst4, exCst7, exAdd, exRetAfter],
    existingConstants := [100, 101, 201], toErase := [2], fresh := 202 }

/-- Expected output of the pass on cxFunc. -/
def cxCst6 : CF.Op :=
  { id := 200, kind := .constant 6, loc := 21, operands := [], results := [(201, 7)] }

/-- The declined Operation of cxFunc as it appears after the pass: its
first operand slot was redirected from 101 to the materialized 201. -/
def cxMulAfter : CF.Op :=
  { id := 2, kind := .generic 99, loc := 22, operands := [201, 300], results := [(102, 7)] }

/-- Expected pass output on cxFunc. -/
def cxOut : CF.Func := [cxCst6, cxMulAfter]

/-- The pass state after running the pass on the dead-constant scenario. -/
def dcS1 : CF.PassState :=
  { done := [dcConst], existingConstants := [100], toErase := [],
    fresh := 200 }

/-- The body produced by the first pass run on scenario 1. -/
def exOut1 : CF.Func := [exCst7, exRetAfter]

end EX

/-! Ledger consistency machinery. -/

namespace SSA

theorem consistent_empty : Consistent emptyGraph := by
  refine ⟨fun u v => ?_, fun v => ?_, ?_⟩ <;> simp [emptyGraph]

theorem consistent_newValue {g : UseGraph} (hc : Consistent g)
    (kind : SSAValueKind) (type : Ty) : Consistent (newValue g kind type) :=
  ⟨hc.mem_ledger, hc.nodup_ledger, hc.nodup_uses⟩

theorem consistent_addUse {g : UseGraph} {u : UseId} {v : ValueId}
    (hc : Consistent g) (hu : u ∉ g.uses) : Consistent (addUse g u v) := by
  have hnotled : ∀ y, u ∉ g.ledgerOf y := by
    intro y hmem
    exact hu ((hc.mem_ledger u y).mp hmem).1
  refine ⟨fun x y => ?_, fun y => ?_, List.Nodup.cons hu hc.nodup_uses⟩
  · show x ∈ (if y = v then u :: g.ledgerOf y else g.ledgerOf y) ↔
      x ∈ u :: g.uses ∧ (if x = u then v else g.slotOf x) = y
    by_cases hxu : x = u
    · subst hxu
      by_cases hyv : y = v
      · simp [hyv]
      · rw [if_neg hyv, if_pos rfl]
        simp only [List.mem_cons, true_or, true_and]
        constructor
        · intro hmem
          exact (hnotled y hmem).elim
        · intro hvy
          exact absurd hvy.symm hyv
    · by_cases hyv : y = v
      · rw [if_pos hyv, if_neg hxu]
        simp only [List.mem_cons, hxu, false_or]
        exact hc.mem_ledger x y
      · rw [if_neg hyv, if_neg hxu]
        simp only [List.mem_cons, hxu, false_or]
        exact hc.mem_ledger x y
  · show List.Nodup (if y = v then u :: g.ledgerOf y else g.ledgerOf y)
    by_cases hyv : y = v
    · rw [if_pos hyv]
      exact List.Nodup.cons (hnotled y) (hc.nodup_ledger y)
    · rw [if_neg hyv]
      exact hc.nodup_ledger y

theorem consistent_removeUse {g : UseGraph} {u : UseId}
    (hc : Consistent g) : Consistent (removeUse g u) := by
  refine ⟨fun x y => ?_, fun y => ?_, hc.nodup_uses.erase u⟩
  · show x ∈ (g.ledgerOf y).erase u ↔ x ∈ g.uses.erase u ∧ g.slotOf x = y
    rw [(hc.nodup_ledger y).mem_erase_iff, hc.nodup_uses.mem_erase_iff,
      hc.mem_ledger x y]
    tauto
  · exact (hc.nodup_ledger y).erase u

theorem consistent_rauw {g : UseGraph} {v w : ValueId}
    (hc : Consistent g) (hvw : v ≠ w) : Consistent (replaceAllUsesWith g v w) := by
  refine ⟨fun x y => ?_, fun y => ?_, hc.nodup_uses⟩
  · show x ∈ (if y = v then []
        else if y = w then g.ledgerOf w ++ g.ledgerOf v else g.ledgerOf y) ↔
      x ∈ g.uses ∧ (if g.slotOf x = v then w else g.slotOf x) = y
    by_cases hyv : y = v
    · rw [if_pos hyv]
      simp only [List.not_mem_nil, false_iff]
      rintro ⟨hxu, hslot⟩
      by_cases hxv : g.slotOf x = v
      · rw [if_pos hxv] at hslot
        rw [hyv] at hslot
        exact hvw hslot.symm
      · rw [if_neg hxv] at hslot
        exact hxv (hslot.trans hyv)
    · by_cases hyw : y = w
      · rw [if_neg hyv, if_pos hyw]
        rw [List.mem_append, hc.mem_ledger x w, hc.mem_ledger x v]
        constructor
        · rintro (⟨hxu, hs⟩ | ⟨hxu, hs⟩)
          · have hxv : g.slotOf x ≠ v := by
              rw [hs]
              exact Ne.symm hvw
            refine ⟨hxu, ?_⟩
            rw [if_neg hxv, hs]
            exact hyw.symm
          · refine ⟨hxu, ?_⟩
            rw [if_pos hs]
            exact hyw.symm
        · rintro ⟨hxu, hs⟩
          by_cases hxv : g.slotOf x = v
          · exact Or.inr ⟨hxu, hxv⟩
          · rw [if_neg hxv] at hs
            exact Or.inl ⟨hxu, hs.trans hyw⟩
      · rw [if_neg hyv, if_neg hyw, hc.mem_ledger x y]
        constructor
        · rintro ⟨hxu, hs⟩
          have hxv : g.slotOf x ≠ v := fun h => hyv (hs.symm.trans h)
          refine ⟨hxu, ?_⟩
          rw [if_neg hxv]
          exact hs
        · rintro ⟨hxu, hs⟩
          by_cases hxv : g.slotOf x = v
          · rw [if_pos hxv] at hs
            exact absurd hs.symm hyw
          · rw [if_neg hxv] at hs
            exact ⟨hxu, hs⟩
  · show List.Nodup (if y = v then []
        else if y = w then g.ledgerOf w ++ g.ledgerOf v else g.ledgerOf y)
    by_cases hyv : y = v
    · rw [if_pos hyv]
      exact List.nodup_nil
    · by_cases hyw : y = w
      · rw [if_neg hyv, if_pos hyw]
        refine List.Nodup.append (hc.nodup_ledger w) (hc.nodup_ledger v) ?_
        intro x hw hv
        have h1 := ((hc.mem_ledger x w).mp hw).2
        have h2 := ((hc.mem_ledger x v).mp hv).2
        exact hvw (h2.symm.trans h1)
      · rw [if_neg hyv, if_neg hyw]
        exact hc.nodup_ledger y

theorem consistent_step {g g' : UseGraph} (hs : Step g g')
    (hc : Consistent g) : Consistent g' := by
  cases hs with
  | newValue kind type => exact consistent_newValue hc kind type
  | addUse u v hu => exact consistent_addUse hc hu
  | removeUse u => exact consistent_removeUse hc
  | rauw v w hvw => exact consistent_rauw hc hvw

theorem consistent_reachableFrom {g g' : UseGraph} (h : ReachableFrom g g')
    (hc : Consistent g) : Consistent g' := by
  induction h with
  | refl => exact hc
  | step _ hs ih => exact consistent_step hs ih

theorem consistent_of_reachable {g : UseGraph} (h : Reachable g) :
    Consistent g :=
  consistent_reachableFrom h consistent_empty

theorem step_val_frame {g g' : UseGraph} (hs : Step g g') :
    (∀ v, v < g.nvals → g'.val v = g.val v) ∧ g.nvals ≤ g'.nvals := by
  cases hs with
  | newValue kind type =>
      refine ⟨fun v hv => ?_, Nat.le_succ _⟩
      show (if v = g.nvals then SSAValue.make kind type else g.val v) = g.val v
      rw [if_neg (Nat.ne_of_lt hv)]
  | addUse u v hu => exact ⟨fun _ _ => rfl, Nat.le_refl _⟩
  | removeUse u => exact ⟨fun _ _ => rfl, Nat.le_refl _⟩
  | rauw v w hvw => exact ⟨fun _ _ => rfl, Nat.le_refl _⟩

theorem reachableFrom_val_frame {g g' : UseGraph} (h : ReachableFrom g g') :
    (∀ v, v < g.nvals → g'.val v = g.val v) ∧ g.nvals ≤ g'.nvals := by
  induction h with
  | refl => exact ⟨fun _ _ => rfl, Nat.le_refl _⟩
  | step _ hs ih =>
      have hf := step_val_frame hs
      exact ⟨fun v hv => (hf.1 v (Nat.lt_of_lt_of_le hv ih.2)).trans (ih.1 v hv),
        Nat.le_trans ih.2 hf.2⟩

end SSA

/-- C1.  Ledger consistency invariant: in every graph state reachable by
the core mutations (value creation, Operation construction adding operand
slots, erasure removing them, and replaceAllUsesWith), a Use record u of
the graph is in the ledger of a Value v exactly when u's slot currently
references v. -/
theorem ledger_consistency_invariant (g : SSA.UseGraph) (hg : SSA.Reachable g) :
    ∀ u v, u ∈ g.uses → (u ∈ g.ledgerOf v ↔ g.slotOf u = v) := by
  intro u v hu
  have hc := SSA.consistent_of_reachable hg
  rw [hc.mem_ledger u v]
  exact and_iff_right hu

/-- Witness for C1 on the concrete reachable graph ssaG1. -/
theorem ledger_consistency_invariant_witness :
    5 ∈ EX.ssaG1.ledgerOf 0 ↔ EX.ssaG1.slotOf 5 = 0 :=
  ledger_consistency_invariant EX.ssaG1
    (SSA.ReachableFrom.step
      (SSA.ReachableFrom.step
        (SSA.ReachableFrom.step (SSA.ReachableFrom.refl _)
          (SSA.Step.newValue _ SSA.SSAValueKind.InstResult 5))
        (SSA.Step.newValue _ SSA.SSAValueKind.InstResult 6))
      (SSA.Step.addUse _ 5 0 (by simp [EX.ssaG0, SSA.newValue, SSA.emptyGraph])))
    5 0 (by simp [EX.ssaG1, EX.ssaG0, SSA.addUse])

/-- C2.  Replace completeness: after replaceAllUsesWith(v, w) (the two
values being distinct, as the underlying implementation requires), v's
ledger is empty, every slot that referenced v now references w, the Use
records of the graph are unchanged in number, and w's ledger took over
exactly the members of both former ledgers. -/
theorem replace_completeness (g : SSA.UseGraph) (v w : SSA.ValueId)
    (hvw : v ≠ w) :
    (SSA.replaceAllUsesWith g v w).ledgerOf v = [] ∧
    (∀ u, g.slotOf u = v → (SSA.replaceAllUsesWith g v w).slotOf u = w) ∧
    (SSA.replaceAllUsesWith g v w).uses.length = g.uses.length ∧
    (∀ u, u ∈ (SSA.replaceAllUsesWith g v w).ledgerOf w ↔
      u ∈ g.ledgerOf w ∨ u ∈ g.ledgerOf v) := by
  refine ⟨?_, fun u hu => ?_, rfl, fun u => ?_⟩
  · show (if v = v then []
      else if v = w then g.ledgerOf w ++ g.ledgerOf v else g.ledgerOf v) = []
    simp
  · show (if g.slotOf u = v then w else g.slotOf u) = w
    simp [hu]
  · show u ∈ (if w = v then []
      else if w = w then g.ledgerOf w ++ g.ledgerOf v else g.ledgerOf w) ↔
      u ∈ g.ledgerOf w ∨ u ∈ g.ledgerOf v
    simp [Ne.symm hvw]

/-- Witness for C2 on the concrete graph ssaG1 with values 0 and 1. -/
theorem replace_completeness_witness :
    (SSA.replaceAllUsesWith EX.ssaG1 0 1).ledgerOf 0 = [] ∧
    (∀ u, EX.ssaG1.slotOf u = 0 →
      (SSA.replaceAllUsesWith EX.ssaG1 0 1).slotOf u = 1) ∧
    (SSA.replaceAllUsesWith EX.ssaG1 0 1).uses.length =
      EX.ssaG1.uses.length ∧
    (∀ u, u ∈ (SSA.replaceAllUsesWith EX.ssaG1 0 1).ledgerOf 1 ↔
      u ∈ EX.ssaG1.ledgerOf 1 ∨ u ∈ EX.ssaG1.ledgerOf 0) :=
  replace_completeness EX.ssaG1 0 1 (by decide)

/-- C10.  Kind/type immutability: getKind and getType return exactly the
kind and type supplied at construction (the kind surviving its 3-bit
packing), and no core mutation of the use-def substrate ever changes an
allocated Value's stored SSAValue payload. -/
theorem kind_type_immutability :
    (∀ (k : SSA.SSAValueKind) (t : SSA.Ty),
      (SSA.SSAValue.make k t).getKind = k ∧
      (SSA.SSAValue.make k t).getType = t) ∧
    (∀ g g', SSA.ReachableFrom g g' →
      ∀ v, v < g.nvals → g'.val v = g.val v) := by
  constructor
  · intro k t
    refine ⟨?_, rfl⟩
    cases k <;> rfl
  · intro g g' h v hv
    exact (SSA.reachableFrom_val_frame h).1 v hv

/-- Witness for C10: the packed kind and type of a concrete value, and the
payload of value 0 across the concrete mutation chain from ssaG0 to a
replaceAllUsesWith. -/
theorem kind_type_immutability_witness :
    ((SSA.SSAValue.make SSA.SSAValueKind.StmtResult 5).getKind =
        SSA.SSAValueKind.StmtResult ∧
      (SSA.SSAValue.make SSA.SSAValueKind.StmtResult 5).getType = 5) ∧
    (SSA.replaceAllUsesWith EX.ssaG1 0 1).val 0 = EX.ssaG0.val 0 :=
  ⟨kind_type_immutability.1 SSA.SSAValueKind.StmtResult 5,
    kind_type_immutability.2 EX.ssaG0 (SSA.replaceAllUsesWith EX.ssaG1 0 1)
      (SSA.ReachableFrom.step
        (SSA.ReachableFrom.step (SSA.ReachableFrom.refl _)
          (SSA.Step.addUse _ 5 0 (by simp [EX.ssaG0, SSA.newValue, SSA.emptyGraph])))
        (SSA.Step.rauw _ 0 1 (by decide)))
      0 (by decide)⟩

/-! Unfolding equations for foldOperation. -/

namespace CF

theorem foldOperation_constant {op : Op} {a : Attr} (fold : FoldFn)
    (s : PassState) (rest : Func) (hk : op.kind = .constant a) :
    foldOperation fold s op rest =
      some ({ s with
                done := s.done ++ [op]
                existingConstants :=
                  s.existingConstants ++ [constantResult op] }, rest) := by
  unfold foldOperation
  simp only [hk]

theorem foldOperation_decline {op : Op} {code : Nat} {fold : FoldFn}
    {s : PassState} {rest : Func}
    (hk : op.kind = .generic code)
    (hf : fold code (operandConstants (s.done ++ op :: rest) op) = none) :
    foldOperation fold s op rest =
      some ({ s with done := s.done ++ [op] }, rest) := by
  unfold foldOperation
  simp only [hk, hf]

theorem foldOperation_fold {op : Op} {code : Nat} {fold : FoldFn}
    {s : PassState} {rest : Func} {rcs : List Attr}
    (hk : op.kind = .generic code)
    (hf : fold code (operandConstants (s.done ++ op :: rest) op) = some rcs)
    (ha : rcs.length = op.results.length) :
    foldOperation fold s op rest =
      some ({ done :=
                (foldResults op.loc (op.results.zip rcs)
                  { done := s.done, news := [], cur := op, rest := rest,
                    ecs := s.existingConstants, fresh := s.fresh }).done ++
                (foldResults op.loc (op.results.zip rcs)
                  { done := s.done, news := [], cur := op, rest := rest,
                    ecs := s.existingConstants, fresh := s.fresh }).news ++
                [(foldResults op.loc (op.results.zip rcs)
                  { done := s.done, news := [], cur := op, rest := rest,
                    ecs := s.existingConstants, fresh := s.fresh }).cur]
              existingConstants :=
                (foldResults op.loc (op.results.zip rcs)
                  { done := s.done, news := [], cur := op, rest := rest,
                    ecs := s.existingConstants, fresh := s.fresh }).ecs
              toErase := s.toErase ++ [op.id]
              fresh :=
                (foldResults op.loc (op.results.zip rcs)
                  { done := s.done, news := [], cur := op, rest := rest,
                    ecs := s.existingConstants, fresh := s.fresh }).fresh },
            (foldResults op.loc (op.results.zip rcs)
              { done := s.done, news := [], cur := op, rest := rest,
                ecs := s.existingConstants, fresh := s.fresh }).rest) := by
  unfold foldOperation
  simp only [hk, hf, if_pos ha]

theorem foldOperation_arity_fatal {op : Op} {code : Nat} {fold : FoldFn}
    {s : PassState} {rest : Func} {rcs : List Attr}
    (hk : op.kind = .generic code)
    (hf : fold code (operandConstants (s.done ++ op :: rest) op) = some rcs)
    (ha : rcs.length ≠ op.results.length) :
    foldOperation fold s op rest = none := by
  unfold foldOperation
  simp only [hk, hf, if_neg ha]

end CF

/-- C6.  Fold-arity contract: when the fold capability succeeds, a payload
sequence with exactly one entry per result lets the pass proceed (the
assertion never fires), while a wrong-arity payload is the fatal assertion
outcome, never a recoverable one. -/
theorem fold_arity_contract (fold : CF.FoldFn) (s : CF.PassState)
    (op : CF.Op) (rest : CF.Func) (code : Nat) (rcs : List CF.Attr)
    (hk : op.kind = .generic code)
    (hf : fold code (CF.operandConstants (s.done ++ op :: rest) op) = some rcs) :
    (rcs.length = op.results.length →
      ∃ out, CF.foldOperation fold s op rest = some out) ∧
    (rcs.length ≠ op.results.length →
      CF.foldOperation fold s op rest = none) :=
  ⟨fun ha => ⟨_, CF.foldOperation_fold hk hf ha⟩,
   fun ha => CF.foldOperation_arity_fatal hk hf ha⟩

/-- Witness for C6 at scenario 1's add (payload length 1, one result). -/
theorem fold_arity_contract_witness :
    ∃ out, CF.foldOperation EX.addFold EX.exSt2 EX.exAdd [EX.exRet] = some out :=
  (fold_arity_contract EX.addFold EX.exSt2 EX.exAdd [EX.exRet] 0 [7]
      rfl (by decide)).1 (by decide)

/-- C4 counterexample: the Operation cxMul declines its fold (its
capability requires full-constant inputs and operand 300 is a function
argument), yet a whole pass run rewrites its first operand slot from 101
to the materialized constant 201, so a declined Operation is not
byte-for-byte unchanged by the pass. -/
theorem declined_op_not_pass_invariant :
    EX.addFold 99 (CF.operandConstants EX.cxFunc EX.cxMul) = none ∧
    EX.cxMul ∈ EX.cxFunc ∧
    (CF.runOnFunction EX.addFold EX.cxFunc 200).map Prod.fst =
      some EX.cxOut ∧
    EX.cxMulAfter ∈ EX.cxOut ∧
    EX.cxMulAfter.id = EX.cxMul.id ∧
    EX.cxMulAfter.operands ≠ EX.cxMul.operands := by
  decide

/-- C4 amended: a failed or declined fold attempt is atomic — the attempt
itself leaves the Operation, its operand slots and its results untouched,
materializes no constant, redirects no use and schedules nothing for
erasure (the Operation may still be rewritten later in the same run when a
defining Operation of one of its operands is folded). -/
theorem declined_fold_attempt_atomicity (fold : CF.FoldFn) (s : CF.PassState)
    (op : CF.Op) (rest : CF.Func) (code : Nat)
    (hk : op.kind = .generic code)
    (hf : fold code (CF.operandConstants (s.done ++ op :: rest) op) = none) :
    CF.foldOperation fold s op rest =
      some ({ s with done := s.done ++ [op] }, rest) :=
  CF.foldOperation_decline hk hf

/-- Witness for the amended C4 at the unfoldable return of scenario 1. -/
theorem declined_fold_attempt_atomicity_witness :
    CF.foldOperation EX.addFold EX.exSt0 EX.exRet [] =
      some ({ EX.exSt0 with done := [EX.exRet] }, []) :=
  declined_fold_attempt_atomicity EX.addFold EX.exSt0 EX.exRet [] 99
    rfl (by decide)

/-! Basic lemmas about the pass primitives. -/

namespace CF

theorem rauwOp_id (v w : ValueId) (op : Op) : (rauwOp v w op).id = op.id := rfl

theorem rauwOp_kind (v w : ValueId) (op : Op) :
    (rauwOp v w op).kind = op.kind := rfl

theorem rauwOp_loc (v w : ValueId) (op : Op) :
    (rauwOp v w op).loc = op.loc := rfl

theorem rauwOp_results (v w : ValueId) (op : Op) :
    (rauwOp v w op).results = op.results := rfl

theorem rauwOp_of_no_operands {op : Op} (v w : ValueId)
    (h : op.operands = []) : rauwOp v w op = op := by
  cases op
  simp only [rauwOp] at *
  simp_all

theorem mem_operands_rauwOp {a b x : ValueId} {op : Op}
    (hxa : x ≠ a) (hxb : x ≠ b) :
    x ∈ (rauwOp a b op).operands ↔ x ∈ op.operands := by
  unfold rauwOp
  simp only [List.mem_map]
  constructor
  · rintro ⟨y, hy, hxy⟩
    by_cases hya : y = a
    · rw [if_pos hya] at hxy
      exact absurd hxy (Ne.symm hxb)
    · rw [if_neg hya] at hxy
      exact hxy ▸ hy
  · intro hx
    refine ⟨x, hx, ?_⟩
    rw [if_neg hxa]

theorem rauw_map_id (f : Func) (v w : ValueId) :
    (rauw f v w).map Op.id = f.map Op.id := by
  unfold rauw
  rw [List.map_map]
  exact List.map_congr_left fun op _ => rfl

theorem useEmpty_iff {f : Func} {v : ValueId} :
    useEmpty f v = true ↔ ∀ op ∈ f, v ∉ op.operands := by
  unfold useEmpty
  simp [List.all_eq_true]

theorem useEmpty_sublist {f g : Func} {v : ValueId}
    (hsub : ∀ op ∈ g, op ∈ f) (h : useEmpty f v = true) :
    useEmpty g v = true := by
  rw [useEmpty_iff] at *
  exact fun op hop => h op (hsub op hop)

theorem useEmpty_rauw_preserve {f : Func} {a b v : ValueId} (hvb : v ≠ b)
    (h : useEmpty f v = true) : useEmpty (rauw f a b) v = true := by
  rw [useEmpty_iff] at *
  intro op hop
  rw [rauw, List.mem_map] at hop
  obtain ⟨q, hq, rfl⟩ := hop
  intro hmem
  rw [rauwOp, List.mem_map] at hmem
  obtain ⟨y, hy, hyv⟩ := hmem
  by_cases hya : y = a
  · rw [if_pos hya] at hyv
    exact hvb hyv.symm
  · rw [if_neg hya] at hyv
    exact h q hq (hyv ▸ hy)

theorem useEmpty_rauw_self {f : Func} {res b : ValueId} (h : b ≠ res) :
    useEmpty (rauw f res b) res = true := by
  rw [useEmpty_iff]
  intro op hop
  rw [rauw, List.mem_map] at hop
  obtain ⟨q, hq, rfl⟩ := hop
  intro hmem
  rw [rauwOp, List.mem_map] at hmem
  obtain ⟨y, hy, hyv⟩ := hmem
  by_cases hya : y = res
  · rw [if_pos hya] at hyv
    exact h hyv
  · rw [if_neg hya] at hyv
    exact hya hyv

theorem useEmpty_rauw_eq {f : Func} {a b v : ValueId}
    (hva : v ≠ a) (hvb : v ≠ b) :
    useEmpty (rauw f a b) v = useEmpty f v := by
  rw [Bool.eq_iff_iff, useEmpty_iff, useEmpty_iff]
  constructor
  · intro h op hop hmem
    exact h _ (List.mem_map_of_mem _ hop)
      ((mem_operands_rauwOp hva hvb).mpr hmem)
  · intro h op hop
    rw [rauw, List.mem_map] at hop
    obtain ⟨q, hq, rfl⟩ := hop
    intro hmem
    exact h q hq ((mem_operands_rauwOp hva hvb).mp hmem)

theorem useEmpty_append {f g : Func} {v : ValueId} :
    useEmpty (f ++ g) v = (useEmpty f v && useEmpty g v) :=
  List.all_append

theorem defines_iff {op : Op} {v : ValueId} :
    op.defines v = true ↔ v ∈ op.results.map Prod.fst := by
  unfold Op.defines
  exact decide_eq_true_iff

theorem getDefiningOp_rauw (f : Func) (a b v : ValueId) :
    getDefiningOp (rauw f a b) v = (getDefiningOp f v).map (rauwOp a b) := by
  unfold getDefiningOp rauw
  rw [List.find?_map]
  congr 1

theorem getDefiningOp_append (l₁ l₂ : Func) (v : ValueId) :
    getDefiningOp (l₁ ++ l₂) v =
      (getDefiningOp l₁ v).or (getDefiningOp l₂ v) :=
  List.find?_append

theorem getDefiningOp_mem {f : Func} {v : ValueId} {op : Op}
    (h : getDefiningOp f v = some op) : op ∈ f ∧ op.defines v = true := by
  unfold getDefiningOp at h
  have h1 : op ∈ f := List.mem_of_find?_eq_some h
  have h2 := List.find?_some h
  exact ⟨h1, h2⟩

theorem constantResult_eq {op : Op} {v : ValueId} {t : Ty}
    (h : op.results = [(v, t)]) : constantResult op = v := by
  unfold constantResult
  rw [h]
  rfl

theorem foldResults_nil (loc : Loc) (s : VisitState) :
    foldResults loc [] s = s := rfl

theorem foldResults_cons_skip {s : VisitState} {rt : ValueId × Ty} {a : Attr}
    (loc : Loc) (rs : List ((ValueId × Ty) × Attr))
    (h : useEmpty s.func rt.1 = true) :
    foldResults loc ((rt, a) :: rs) s = foldResults loc rs s := by
  simp only [foldResults]
  rw [if_pos h]

theorem foldResults_cons_use {s : VisitState} {rt : ValueId × Ty} {a : Attr}
    (loc : Loc) (rs : List ((ValueId × Ty) × Attr))
    (h : ¬ useEmpty s.func rt.1 = true) :
    foldResults loc ((rt, a) :: rs) s =
      foldResults loc rs (frStep loc rt a s) := by
  simp only [foldResults]
  rw [if_neg h]

theorem func_frStep (loc : Loc) (rt : ValueId × Ty) (a : Attr)
    (s : VisitState) :
    (frStep loc rt a s).func =
      rauw (s.done ++ (s.news ++ [frCst loc rt a s.fresh]) ++ s.cur :: s.rest)
        rt.1 (s.fresh + 1) := by
  unfold frStep VisitState.func rauw
  simp [List.map_append]

end CF

/-! Stability lemmas for the per-result loop. -/

namespace CF

theorem frStep_fresh (loc : Loc) (rt : ValueId × Ty) (a : Attr)
    (s : VisitState) : (frStep loc rt a s).fresh = s.fresh + 2 := rfl

theorem frStep_ecs (loc : Loc) (rt : ValueId × Ty) (a : Attr)
    (s : VisitState) :
    (frStep loc rt a s).ecs = s.ecs ++ [s.fresh + 1] := rfl

theorem frCst_constantResult (loc : Loc) (rt : ValueId × Ty) (a : Attr)
    (n : Nat) : constantResult (frCst loc rt a n) = n + 1 := rfl

theorem mem_insert_list {q : Op} {loc : Loc} {rt : ValueId × Ty} {a : Attr}
    {s : VisitState} :
    q ∈ s.done ++ (s.news ++ [frCst loc rt a s.fresh]) ++ s.cur :: s.rest ↔
      q ∈ s.func ∨ q = frCst loc rt a s.fresh := by
  unfold VisitState.func
  simp only [List.mem_append, List.mem_cons, List.mem_singleton]
  tauto

theorem mem_func_frStep {q' : Op} {loc : Loc} {rt : ValueId × Ty} {a : Attr}
    {s : VisitState} :
    q' ∈ (frStep loc rt a s).func ↔
      ∃ q, (q ∈ s.func ∨ q = frCst loc rt a s.fresh) ∧
        q' = rauwOp rt.1 (s.fresh + 1) q := by
  rw [func_frStep]
  unfold rauw
  rw [List.mem_map]
  constructor
  · rintro ⟨q, hq, hq'⟩
    exact ⟨q, mem_insert_list.mp hq, hq'.symm⟩
  · rintro ⟨q, hq, hq'⟩
    exact ⟨q, mem_insert_list.mpr hq, hq'.symm⟩

theorem useEmpty_insert_list {loc : Loc} {rt : ValueId × Ty} {a : Attr}
    {s : VisitState} {v : ValueId} (h : useEmpty s.func v = true) :
    useEmpty
      (s.done ++ (s.news ++ [frCst loc rt a s.fresh]) ++ s.cur :: s.rest)
      v = true := by
  rw [useEmpty_iff] at h ⊢
  intro op hop
  rcases mem_insert_list.mp hop with hmem | rfl
  · exact h op hmem
  · simp [frCst]

theorem opBound_mono {op : Op} {n m : Nat} (h : opBound op n) (hnm : n ≤ m) :
    opBound op m :=
  ⟨Nat.lt_of_lt_of_le h.1 hnm,
   fun v hv => Nat.lt_of_lt_of_le (h.2.1 v hv) hnm,
   fun r hr => Nat.lt_of_lt_of_le (h.2.2 r hr) hnm⟩

theorem opBound_rauwOp {op : Op} {n : Nat} {a b : ValueId} (h : opBound op n)
    (hb : b < n) : opBound (rauwOp a b op) n := by
  refine ⟨h.1, ?_, h.2.2⟩
  intro v hv
  rw [rauwOp, List.mem_map] at hv
  obtain ⟨y, hy, hyv⟩ := hv
  by_cases hya : y = a
  · rw [if_pos hya] at hyv
    exact hyv ▸ hb
  · rw [if_neg hya] at hyv
    exact hyv ▸ h.2.1 y hy

theorem opBound_frCst (loc : Loc) (rt : ValueId × Ty) (a : Attr) (n : Nat) :
    opBound (frCst loc rt a n) (n + 2) := by
  refine ⟨?_, ?_, ?_⟩
  · show n < n + 2
    omega
  · intro v hv
    simp [frCst] at hv
  · intro r hr
    simp only [frCst, List.mem_singleton] at hr
    rw [hr]
    show n + 1 < n + 2
    omega

theorem funcBound_frStep {loc : Loc} {rt : ValueId × Ty} {a : Attr}
    {s : VisitState} (hb : funcBound s.func s.fresh) :
    funcBound (frStep loc rt a s).func (frStep loc rt a s).fresh := by
  intro q' hq'
  rw [mem_func_frStep] at hq'
  rw [frStep_fresh]
  obtain ⟨q, hq | rfl, rfl⟩ := hq'
  · exact opBound_rauwOp (opBound_mono (hb q hq) (Nat.le_add_right _ 2))
      (Nat.add_lt_add_left Nat.one_lt_two _)
  · rw [rauwOp_of_no_operands _ _ rfl]
    exact opBound_frCst loc rt a s.fresh

theorem foldResults_bound (loc : Loc)
    (pairs : List ((ValueId × Ty) × Attr)) :
    ∀ s : VisitState, funcBound s.func s.fresh →
      funcBound (foldResults loc pairs s).func
        (foldResults loc pairs s).fresh := by
  induction pairs with
  | nil =>
      intro s hb
      simpa [foldResults_nil] using hb
  | cons p rs ih =>
      intro s hb
      obtain ⟨rt, a⟩ := p
      by_cases h : useEmpty s.func rt.1 = true
      · rw [foldResults_cons_skip loc rs h]
        exact ih s hb
      · rw [foldResults_cons_use loc rs h]
        exact ih _ (funcBound_frStep hb)

theorem foldResults_fresh_le (loc : Loc)
    (pairs : List ((ValueId × Ty) × Attr)) :
    ∀ s : VisitState, s.fresh ≤ (foldResults loc pairs s).fresh := by
  induction pairs with
  | nil =>
      intro s
      simp [foldResults_nil]
  | cons p rs ih =>
      intro s
      obtain ⟨rt, a⟩ := p
      by_cases h : useEmpty s.func rt.1 = true
      · rw [foldResults_cons_skip loc rs h]
        exact ih s
      · rw [foldResults_cons_use loc rs h]
        calc s.fresh ≤ s.fresh + 2 := by omega
          _ = (frStep loc rt a s).fresh := rfl
          _ ≤ _ := ih _

theorem foldResults_rest_length (loc : Loc)
    (pairs : List ((ValueId × Ty) × Attr)) :
    ∀ s : VisitState,
      (foldResults loc pairs s).rest.length = s.rest.length := by
  induction pairs with
  | nil =>
      intro s
      simp [foldResults_nil]
  | cons p rs ih =>
      intro s
      obtain ⟨rt, a⟩ := p
      by_cases h : useEmpty s.func rt.1 = true
      · rw [foldResults_cons_skip loc rs h]
        exact ih s
      · rw [foldResults_cons_use loc rs h, ih _]
        exact List.length_map _ _

theorem foldResults_cur (loc : Loc)
    (pairs : List ((ValueId × Ty) × Attr)) :
    ∀ s : VisitState,
      (foldResults loc pairs s).cur.id = s.cur.id ∧
      (foldResults loc pairs s).cur.kind = s.cur.kind ∧
      (foldResults loc pairs s).cur.results = s.cur.results ∧
      (foldResults loc pairs s).cur.loc = s.cur.loc := by
  induction pairs with
  | nil =>
      intro s
      simp [foldResults_nil]
  | cons p rs ih =>
      intro s
      obtain ⟨rt, a⟩ := p
      by_cases h : useEmpty s.func rt.1 = true
      · rw [foldResults_cons_skip loc rs h]
        exact ih s
      · rw [foldResults_cons_use loc rs h]
        exact ih _

theorem foldResults_ecs_sub (loc : Loc)
    (pairs : List ((ValueId × Ty) × Attr)) :
    ∀ s : VisitState, ∀ c ∈ s.ecs, c ∈ (foldResults loc pairs s).ecs := by
  induction pairs with
  | nil =>
      intro s c hc
      simpa [foldResults_nil] using hc
  | cons p rs ih =>
      intro s c hc
      obtain ⟨rt, a⟩ := p
      by_cases h : useEmpty s.func rt.1 = true
      · rw [foldResults_cons_skip loc rs h]
        exact ih s c hc
      · rw [foldResults_cons_use loc rs h]
        refine ih _ c ?_
        rw [frStep_ecs]
        exact List.mem_append_left _ hc

theorem foldResults_ecs_new (loc : Loc)
    (pairs : List ((ValueId × Ty) × Attr)) :
    ∀ s : VisitState, ∀ c ∈ (foldResults loc pairs s).ecs,
      c ∈ s.ecs ∨ s.fresh ≤ c := by
  induction pairs with
  | nil =>
      intro s c hc
      rw [foldResults_nil] at hc
      exact Or.inl hc
  | cons p rs ih =>
      intro s c hc
      obtain ⟨rt, a⟩ := p
      by_cases h : useEmpty s.func rt.1 = true
      · rw [foldResults_cons_skip loc rs h] at hc
        exact ih s c hc
      · rw [foldResults_cons_use loc rs h] at hc
        rcases ih _ c hc with hmem | hge
        · rw [frStep_ecs, List.mem_append] at hmem
          rcases hmem with hmem | hmem
          · exact Or.inl hmem
          · rw [List.mem_singleton] at hmem
            exact Or.inr (hmem ▸ Nat.le_succ _)
        · rw [frStep_fresh] at hge
          exact Or.inr (Nat.le_trans (Nat.le_add_right _ 2) hge)

theorem foldResults_useEmpty_stable (loc : Loc)
    (pairs : List ((ValueId × Ty) × Attr)) :
    ∀ s : VisitState, ∀ v : ValueId, v < s.fresh →
      useEmpty s.func v = true →
      useEmpty (foldResults loc pairs s).func v = true := by
  induction pairs with
  | nil =>
      intro s v _ h
      simpa [foldResults_nil] using h
  | cons p rs ih =>
      intro s v hv h
      obtain ⟨rt, a⟩ := p
      by_cases hu : useEmpty s.func rt.1 = true
      · rw [foldResults_cons_skip loc rs hu]
        exact ih s v hv h
      · rw [foldResults_cons_use loc rs hu]
        refine ih (frStep loc rt a s) v ?_ ?_
        · rw [frStep_fresh]
          exact Nat.lt_of_lt_of_le hv (Nat.le_add_right _ 2)
        · rw [func_frStep]
          exact useEmpty_rauw_preserve
            (Nat.ne_of_lt (Nat.lt_succ_of_lt hv)) (useEmpty_insert_list h)

theorem foldResults_slot_stable (loc : Loc)
    (pairs : List ((ValueId × Ty) × Attr)) :
    ∀ s : VisitState, ∀ qid j : Nat, ∀ w : ValueId,
      (∀ p ∈ pairs, p.1.1 ≠ w) →
      (∃ q ∈ s.func, q.id = qid ∧ q.operands[j]? = some w) →
      ∃ q' ∈ (foldResults loc pairs s).func,
        q'.id = qid ∧ q'.operands[j]? = some w := by
  induction pairs with
  | nil =>
      intro s qid j w _ h
      simpa [foldResults_nil] using h
  | cons p rs ih =>
      intro s qid j w hdis h
      obtain ⟨rt, a⟩ := p
      obtain ⟨q, hq, hid, hj⟩ := h
      by_cases hu : useEmpty s.func rt.1 = true
      · rw [foldResults_cons_skip loc rs hu]
        exact ih s qid j w (fun p hp => hdis p (List.mem_cons_of_mem _ hp))
          ⟨q, hq, hid, hj⟩
      · rw [foldResults_cons_use loc rs hu]
        refine ih _ qid j w
          (fun p hp => hdis p (List.mem_cons_of_mem _ hp)) ?_
        refine ⟨rauwOp rt.1 (s.fresh + 1) q,
          mem_func_frStep.mpr ⟨q, Or.inl hq, rfl⟩, hid, ?_⟩
        show (q.operands.map fun x => if x = rt.1 then s.fresh + 1 else x)[j]?
          = some w
        rw [List.getElem?_map, hj]
        have hwr : w ≠ rt.1 :=
          fun hcontra => hdis (rt, a) (List.mem_cons_self _ _) hcontra.symm
        simp [hwr]

theorem foldResults_news_stable (loc : Loc)
    (pairs : List ((ValueId × Ty) × Attr)) :
    ∀ s : VisitState, ∀ c : Op, c ∈ s.news → c.operands = [] →
      c ∈ (foldResults loc pairs s).news := by
  induction pairs with
  | nil =>
      intro s c hc _
      simpa [foldResults_nil] using hc
  | cons p rs ih =>
      intro s c hc hop
      obtain ⟨rt, a⟩ := p
      by_cases hu : useEmpty s.func rt.1 = true
      · rw [foldResults_cons_skip loc rs hu]
        exact ih s c hc hop
      · rw [foldResults_cons_use loc rs hu]
        refine ih _ c ?_ hop
        show c ∈ rauw (s.news ++ [frCst loc rt a s.fresh]) rt.1 (s.fresh + 1)
        rw [rauw, List.mem_map]
        exact ⟨c, List.mem_append_left _ hc, rauwOp_of_no_operands _ _ hop⟩

end CF

/-! Origin and descendant tracking through the per-result loop. -/

namespace CF

theorem useEmpty_insert_eq {loc : Loc} {rt : ValueId × Ty} {a : Attr}
    {s : VisitState} {v : ValueId} :
    useEmpty (s.done ++ (s.news ++ [frCst loc rt a s.fresh]) ++ s.cur :: s.rest) v
      = useEmpty s.func v := by
  rw [Bool.eq_iff_iff, useEmpty_iff, useEmpty_iff]
  constructor
  · intro h op hop
    exact h op (mem_insert_list.mpr (Or.inl hop))
  · intro h op hop
    rcases mem_insert_list.mp hop with hm | rfl
    · exact h op hm
    · simp [frCst]

theorem useEmpty_frStep_eq {loc : Loc} {rt : ValueId × Ty} {a : Attr}
    {s : VisitState} {v : ValueId} (hvr : v ≠ rt.1)
    (hvf : v ≠ s.fresh + 1) :
    useEmpty (frStep loc rt a s).func v = useEmpty s.func v := by
  rw [func_frStep, useEmpty_rauw_eq hvr hvf, useEmpty_insert_eq]

theorem foldResults_done_length (loc : Loc)
    (pairs : List ((ValueId × Ty) × Attr)) :
    ∀ s : VisitState,
      (foldResults loc pairs s).done.length = s.done.length := by
  induction pairs with
  | nil =>
      intro s
      simp [foldResults_nil]
  | cons p rs ih =>
      intro s
      obtain ⟨rt, a⟩ := p
      by_cases h : useEmpty s.func rt.1 = true
      · rw [foldResults_cons_skip loc rs h]
        exact ih s
      · rw [foldResults_cons_use loc rs h, ih _]
        exact List.length_map _ _

theorem foldResults_done_zero (loc : Loc)
    (pairs : List ((ValueId × Ty) × Attr)) :
    ∀ s : VisitState, ∀ c : Op, c ∈ s.done → c.operands = [] →
      c ∈ (foldResults loc pairs s).done := by
  induction pairs with
  | nil =>
      intro s c hc _
      simpa [foldResults_nil] using hc
  | cons p rs ih =>
      intro s c hc hop
      obtain ⟨rt, a⟩ := p
      by_cases hu : useEmpty s.func rt.1 = true
      · rw [foldResults_cons_skip loc rs hu]
        exact ih s c hc hop
      · rw [foldResults_cons_use loc rs hu]
        refine ih _ c ?_ hop
        show c ∈ rauw s.done rt.1 (s.fresh + 1)
        rw [rauw, List.mem_map]
        exact ⟨c, hc, rauwOp_of_no_operands _ _ hop⟩

theorem foldResults_rest_zero (loc : Loc)
    (pairs : List ((ValueId × Ty) × Attr)) :
    ∀ s : VisitState, ∀ c : Op, c ∈ s.rest → c.operands = [] →
      c ∈ (foldResults loc pairs s).rest := by
  induction pairs with
  | nil =>
      intro s c hc _
      simpa [foldResults_nil] using hc
  | cons p rs ih =>
      intro s c hc hop
      obtain ⟨rt, a⟩ := p
      by_cases hu : useEmpty s.func rt.1 = true
      · rw [foldResults_cons_skip loc rs hu]
        exact ih s c hc hop
      · rw [foldResults_cons_use loc rs hu]
        refine ih _ c ?_ hop
        show c ∈ rauw s.rest rt.1 (s.fresh + 1)
        rw [rauw, List.mem_map]
        exact ⟨c, hc, rauwOp_of_no_operands _ _ hop⟩

theorem foldResults_news_inv (loc : Loc)
    (pairs : List ((ValueId × Ty) × Attr)) :
    ∀ s : VisitState,
      (∀ c ∈ s.news, c.operands = [] ∧ c.isCst = true ∧
        constantResult c ∈ s.ecs) →
      ∀ c ∈ (foldResults loc pairs s).news,
        c.operands = [] ∧ c.isCst = true ∧
          constantResult c ∈ (foldResults loc pairs s).ecs := by
  induction pairs with
  | nil =>
      intro s hinv c hc
      rw [foldResults_nil] at hc ⊢
      exact hinv c hc
  | cons p rs ih =>
      intro s hinv c hc
      obtain ⟨rt, a⟩ := p
      by_cases hu : useEmpty s.func rt.1 = true
      · rw [foldResults_cons_skip loc rs hu] at hc ⊢
        exact ih s hinv c hc
      · rw [foldResults_cons_use loc rs hu] at hc ⊢
        refine ih _ ?_ c hc
        intro c' hc'
        show c'.operands = [] ∧ c'.isCst = true ∧
          constantResult c' ∈ s.ecs ++ [constantResult (frCst loc rt a s.fresh)]
        have hc'' : c' ∈ rauw (s.news ++ [frCst loc rt a s.fresh]) rt.1
            (s.fresh + 1) := hc'
        rw [rauw, List.mem_map] at hc''
        obtain ⟨q, hq, rfl⟩ := hc''
        rcases List.mem_append.mp hq with hq | hq
        · obtain ⟨h1, h2, h3⟩ := hinv q hq
          rw [rauwOp_of_no_operands _ _ h1]
          exact ⟨h1, h2, List.mem_append_left _ h3⟩
        · rw [List.mem_singleton] at hq
          subst hq
          rw [rauwOp_of_no_operands _ _ rfl]
          refine ⟨rfl, rfl, ?_⟩
          exact List.mem_append_right _ (List.mem_singleton.mpr rfl)

theorem foldResults_origin (loc : Loc)
    (pairs : List ((ValueId × Ty) × Attr)) :
    ∀ s : VisitState, ∀ q' ∈ (foldResults loc pairs s).func,
      (∃ q ∈ s.func, q'.id = q.id ∧ q'.kind = q.kind ∧
        q'.results = q.results ∧ q'.loc = q.loc ∧
        (q.operands = [] → q' = q)) ∨
      (s.fresh ≤ q'.id ∧ q'.operands = [] ∧ q'.isCst = true ∧
        ∃ vt : ValueId × Ty, q'.results = [vt] ∧ vt.1 = q'.id + 1) := by
  induction pairs with
  | nil =>
      intro s q' hq'
      rw [foldResults_nil] at hq'
      exact Or.inl ⟨q', hq', rfl, rfl, rfl, rfl, fun _ => rfl⟩
  | cons p rs ih =>
      intro s q' hq'
      obtain ⟨rt, a⟩ := p
      by_cases hu : useEmpty s.func rt.1 = true
      · rw [foldResults_cons_skip loc rs hu] at hq'
        exact ih s q' hq'
      · rw [foldResults_cons_use loc rs hu] at hq'
        rcases ih _ q' hq' with ⟨q₀, hq₀, hid, hkind, hres, hloc, hzero⟩ | hnew
        · rw [mem_func_frStep] at hq₀
          obtain ⟨q, hq | rfl, rfl⟩ := hq₀
          · refine Or.inl ⟨q, hq, hid, hkind, hres, hloc, fun hops => ?_⟩
            have hq₀q : rauwOp rt.1 (s.fresh + 1) q = q :=
              rauwOp_of_no_operands _ _ hops
            rw [hq₀q] at hzero
            exact hzero hops
          · have hcz : rauwOp rt.1 (s.fresh + 1) (frCst loc rt a s.fresh) =
                frCst loc rt a s.fresh := rauwOp_of_no_operands _ _ rfl
            rw [hcz] at hzero hid hkind hres hloc
            have hq' : q' = frCst loc rt a s.fresh := hzero rfl
            subst hq'
            exact Or.inr ⟨Nat.le_refl _, rfl, rfl, (s.fresh + 1, rt.2),
              rfl, rfl⟩
        · obtain ⟨h1, h2, h3, h4⟩ := hnew
          rw [frStep_fresh] at h1
          exact Or.inr ⟨by omega, h2, h3, h4⟩

theorem foldResults_descendant (loc : Loc)
    (pairs : List ((ValueId × Ty) × Attr)) :
    ∀ s : VisitState, ∀ q ∈ s.func,
      ∃ q' ∈ (foldResults loc pairs s).func, q'.id = q.id ∧
        q'.kind = q.kind ∧ q'.results = q.results ∧ q'.loc = q.loc ∧
        (q.operands = [] → q' = q) := by
  induction pairs with
  | nil =>
      intro s q hq
      rw [foldResults_nil]
      exact ⟨q, hq, rfl, rfl, rfl, rfl, fun _ => rfl⟩
  | cons p rs ih =>
      intro s q hq
      obtain ⟨rt, a⟩ := p
      by_cases hu : useEmpty s.func rt.1 = true
      · rw [foldResults_cons_skip loc rs hu]
        exact ih s q hq
      · rw [foldResults_cons_use loc rs hu]
        have hq₁ : rauwOp rt.1 (s.fresh + 1) q ∈ (frStep loc rt a s).func :=
          mem_func_frStep.mpr ⟨q, Or.inl hq, rfl⟩
        obtain ⟨q', hq', hid, hkind, hres, hloc, hzero⟩ := ih _ _ hq₁
        refine ⟨q', hq', hid, hkind, hres, hloc, fun hops => ?_⟩
        have hq₁q : rauwOp rt.1 (s.fresh + 1) q = q :=
          rauwOp_of_no_operands _ _ hops
        rw [hq₁q] at hzero
        exact hzero hops

theorem mem_foldl_eraseOp_subset (l : List Nat) :
    ∀ g : Func, ∀ q ∈ l.foldl eraseOp g, q ∈ g := by
  induction l with
  | nil =>
      intro g q hq
      simpa using hq
  | cons x xs ih =>
      intro g q hq
      exact List.mem_of_mem_filter (ih (eraseOp g x) q hq)

theorem eraseAll_not_mem {oid : Nat} (l : List Nat) (hmem : oid ∈ l) :
    ∀ g : Func, ∀ q ∈ l.foldl eraseOp g, q.id ≠ oid := by
  induction l with
  | nil => cases hmem
  | cons x xs ih =>
      intro g q hq
      rcases List.mem_cons.mp hmem with heq | hmem'
      · subst heq
        have hsub := mem_foldl_eraseOp_subset xs _ q hq
        have := List.of_mem_filter hsub
        simpa using this
      · exact ih hmem' (eraseOp g x) q hq

theorem out_eq_func (t : VisitState) :
    (t.done ++ t.news ++ [t.cur]) ++ t.rest = t.func := by
  unfold VisitState.func
  simp

end CF

/-! The main per-result characterization of the fold loop. -/

namespace CF

theorem lt_add_two {x n : Nat} (h : x < n) : x < n + 2 := by omega

theorem succ_ne_of_lt {x n : Nat} (h : x < n) : n + 1 ≠ x := by omega

theorem ne_succ_of_lt {x n : Nat} (h : x < n) : x ≠ n + 1 := by omega

theorem foldResults_main (loc : Loc)
    (pairs : List ((ValueId × Ty) × Attr)) :
    ∀ s : VisitState,
      funcBound s.func s.fresh →
      (∀ p ∈ pairs, p.1.1 < s.fresh) →
      (pairs.map (fun p => p.1.1)).Nodup →
      ∀ p ∈ pairs, useEmpty s.func p.1.1 = false →
        ∃ v cop, s.fresh ≤ v ∧
          cop ∈ (foldResults loc pairs s).news ∧
          cop.kind = .constant p.2 ∧ cop.loc = loc ∧
          cop.operands = [] ∧ cop.results = [(v, p.1.2)] ∧
          useEmpty (foldResults loc pairs s).func p.1.1 = true ∧
          (∀ q ∈ s.func, ∀ j : Nat, q.operands[j]? = some p.1.1 →
            ∃ q' ∈ (foldResults loc pairs s).func,
              q'.id = q.id ∧ q'.operands[j]? = some v) := by
  induction pairs with
  | nil =>
      intro s _ _ _ p hp
      cases hp
  | cons ph rs ih =>
      intro s hb hlt hnd p hp hused
      obtain ⟨rt, a⟩ := ph
      rw [List.map_cons] at hnd
      have hnd1 := List.nodup_cons.mp hnd
      by_cases hu : useEmpty s.func rt.1 = true
      · rw [foldResults_cons_skip loc rs hu]
        rcases List.mem_cons.mp hp with heq | hp'
        · subst heq
          rw [hused] at hu
          cases hu
        · exact ih s hb (fun p' h => hlt p' (List.mem_cons_of_mem _ h))
            hnd1.2 p hp' hused
      · rw [foldResults_cons_use loc rs hu]
        have hrtlt : rt.1 < s.fresh := hlt (rt, a) (List.mem_cons_self _ _)
        rcases List.mem_cons.mp hp with heq | hp'
        · subst heq
          refine ⟨s.fresh + 1, frCst loc rt a s.fresh, Nat.le_succ _,
            ?_, rfl, rfl, rfl, rfl, ?_, ?_⟩
          · refine foldResults_news_stable loc rs _ _ ?_ rfl
            show frCst loc rt a s.fresh ∈
              rauw (s.news ++ [frCst loc rt a s.fresh]) rt.1 (s.fresh + 1)
            rw [rauw, List.mem_map]
            exact ⟨frCst loc rt a s.fresh,
              List.mem_append_right _ (List.mem_singleton.mpr rfl),
              rauwOp_of_no_operands _ _ rfl⟩
          · refine foldResults_useEmpty_stable loc rs (frStep loc rt a s)
              rt.1 ?_ ?_
            · rw [frStep_fresh]
              exact lt_add_two hrtlt
            · rw [func_frStep]
              exact useEmpty_rauw_self (succ_ne_of_lt hrtlt)
          · intro q hq j hj
            refine foldResults_slot_stable loc rs (frStep loc rt a s)
              q.id j (s.fresh + 1) ?_ ?_
            · intro p' hp' hcontra
              exact succ_ne_of_lt (hlt p' (List.mem_cons_of_mem _ hp'))
                hcontra.symm
            · refine ⟨rauwOp rt.1 (s.fresh + 1) q,
                mem_func_frStep.mpr ⟨q, Or.inl hq, rfl⟩, rfl, ?_⟩
              show (q.operands.map
                fun x => if x = rt.1 then s.fresh + 1 else x)[j]? =
                some (s.fresh + 1)
              rw [List.getElem?_map, hj]
              simp
        · have hne : p.1.1 ≠ rt.1 := by
            intro hcontra
            exact hnd1.1 (hcontra ▸ List.mem_map_of_mem _ hp')
          have hplt : p.1.1 < s.fresh :=
            hlt p (List.mem_cons_of_mem _ hp')
          have hused' : useEmpty (frStep loc rt a s).func p.1.1 = false := by
            rw [useEmpty_frStep_eq hne (ne_succ_of_lt hplt)]
            exact hused
          obtain ⟨v, cop, hv, hmem, hkind, hloc, hops, hres, hue, hslot⟩ :=
            ih (frStep loc rt a s) (funcBound_frStep hb)
              (fun p' h' => by
                rw [frStep_fresh]
                exact lt_add_two (hlt p' (List.mem_cons_of_mem _ h')))
              hnd1.2 p hp' hused'
          rw [frStep_fresh] at hv
          refine ⟨v, cop, Nat.le_trans (Nat.le_add_right _ 2) hv,
            hmem, hkind, hloc, hops, hres, hue, ?_⟩
          intro q hq j hj
          have hq₁ : rauwOp rt.1 (s.fresh + 1) q ∈ (frStep loc rt a s).func :=
            mem_func_frStep.mpr ⟨q, Or.inl hq, rfl⟩
          have hj₁ : (rauwOp rt.1 (s.fresh + 1) q).operands[j]? =
              some p.1.1 := by
            show (q.operands.map
              fun x => if x = rt.1 then s.fresh + 1 else x)[j]? = some p.1.1
            rw [List.getElem?_map, hj]
            simp [hne]
          obtain ⟨q', hq', hid', hj'⟩ := hslot _ hq₁ j hj₁
          exact ⟨q', hq', hid', hj'⟩

theorem foldResults_news_length (loc : Loc)
    (pairs : List ((ValueId × Ty) × Attr)) :
    ∀ s : VisitState,
      (∀ p ∈ pairs, p.1.1 < s.fresh) →
      (pairs.map (fun p => p.1.1)).Nodup →
      (foldResults loc pairs s).news.length =
        s.news.length +
          (pairs.filter (fun p => !useEmpty s.func p.1.1)).length := by
  induction pairs with
  | nil =>
      intro s _ _
      simp [foldResults_nil]
  | cons ph rs ih =>
      intro s hlt hnd
      obtain ⟨rt, a⟩ := ph
      rw [List.map_cons] at hnd
      have hnd1 := List.nodup_cons.mp hnd
      by_cases hu : useEmpty s.func rt.1 = true
      · rw [foldResults_cons_skip loc rs hu,
          ih s (fun p h => hlt p (List.mem_cons_of_mem _ h)) hnd1.2,
          List.filter_cons]
        simp [hu]
      · rw [foldResults_cons_use loc rs hu,
          ih (frStep loc rt a s)
            (fun p' h' => by
              rw [frStep_fresh]
              exact lt_add_two (hlt p' (List.mem_cons_of_mem _ h')))
            hnd1.2]
        have hlen : (frStep loc rt a s).news.length = s.news.length + 1 := by
          show (rauw (s.news ++ [frCst loc rt a s.fresh]) rt.1
            (s.fresh + 1)).length = s.news.length + 1
          rw [rauw, List.length_map, List.length_append]
          rfl
        have hfil : rs.filter
            (fun p => !useEmpty (frStep loc rt a s).func p.1.1) =
            rs.filter (fun p => !useEmpty s.func p.1.1) := by
          refine List.filter_congr ?_
          intro p' hp'
          have hne : p'.1.1 ≠ rt.1 := by
            intro hcontra
            exact hnd1.1 (hcontra ▸ List.mem_map_of_mem _ hp')
          have hplt := hlt p' (List.mem_cons_of_mem _ hp')
          rw [useEmpty_frStep_eq hne (ne_succ_of_lt hplt)]
        have h0 : useEmpty s.func rt.1 = false := Bool.eq_false_iff.mpr hu
        rw [hlen, hfil, List.filter_cons]
        rw [if_pos (show (!useEmpty s.func (rt, a).1.1) = true by
          show (!useEmpty s.func rt.1) = true
          rw [h0]
          rfl)]
        rw [List.length_cons]
        omega

end CF

/-- C3.  Fold soundness with the per-result rule: when an Operation's fold
attempt succeeds with one payload per result, every result that has at
least one use is replaced end-to-end by a newly materialized ConstantOp
carrying the original's source location, that result's type and the
computed payload; a result with zero uses yields no new constant (the
visited prefix grows by exactly one Operation per used result plus the
original); and the original Operation is appended to toErase regardless,
so the erase sweep removes it. -/
theorem fold_soundness (fold : CF.FoldFn) (s : CF.PassState) (op : CF.Op)
    (rest : CF.Func) (code : Nat) (rcs : List CF.Attr)
    (hk : op.kind = .generic code)
    (hf : fold code (CF.operandConstants (s.done ++ op :: rest) op) = some rcs)
    (ha : rcs.length = op.results.length)
    (hb : CF.funcBound (s.done ++ op :: rest) s.fresh)
    (hnd : (op.results.map Prod.fst).Nodup) :
    ∃ s' rest', CF.foldOperation fold s op rest = some (s', rest') ∧
      s'.toErase = s.toErase ++ [op.id] ∧
      (∀ g : CF.Func, ∀ q ∈ s'.toErase.foldl CF.eraseOp g, q.id ≠ op.id) ∧
      s'.done.length = s.done.length + 1 +
        ((op.results.zip rcs).filter
          (fun p => !CF.useEmpty (s.done ++ op :: rest) p.1.1)).length ∧
      (∀ p ∈ op.results.zip rcs,
        CF.useEmpty (s.done ++ op :: rest) p.1.1 = false →
        ∃ v cop, cop ∈ s'.done ∧ cop.kind = .constant p.2 ∧
          cop.loc = op.loc ∧ cop.operands = [] ∧ cop.results = [(v, p.1.2)] ∧
          CF.useEmpty (s'.done ++ rest') p.1.1 = true ∧
          (∀ q ∈ s.done ++ op :: rest, ∀ j : Nat,
            q.operands[j]? = some p.1.1 →
            ∃ q' ∈ s'.done ++ rest', q'.id = q.id ∧
              q'.operands[j]? = some v)) := by
  have hfunc : ({ done := s.done, news := [], cur := op, rest := rest,
                  ecs := s.existingConstants,
                  fresh := s.fresh } : CF.VisitState).func =
      s.done ++ op :: rest := by
    simp [CF.VisitState.func]
  have hb0 : CF.funcBound ({ done := s.done, news := [], cur := op,
                             rest := rest, ecs := s.existingConstants,
                             fresh := s.fresh } : CF.VisitState).func
      s.fresh := by
    rw [hfunc]
    exact hb
  have hopmem : op ∈ s.done ++ op :: rest :=
    List.mem_append_right _ (List.mem_cons_self _ _)
  have hmapfst : (op.results.zip rcs).map Prod.fst = op.results :=
    List.map_fst_zip _ _ (Nat.le_of_eq ha.symm)
  have hpairs_lt : ∀ p ∈ op.results.zip rcs, p.1.1 < s.fresh := by
    intro p hp
    exact (hb op hopmem).2.2 p.1 (List.of_mem_zip hp).1
  have hpairs_nd : ((op.results.zip rcs).map (fun p => p.1.1)).Nodup := by
    have hcomp : (op.results.zip rcs).map (fun p => p.1.1) =
        ((op.results.zip rcs).map Prod.fst).map Prod.fst := by
      rw [List.map_map]
      rfl
    rw [hcomp, hmapfst]
    exact hnd
  refine ⟨_, _, CF.foldOperation_fold hk hf ha, rfl, ?_, ?_, ?_⟩
  · intro g q hq
    exact CF.eraseAll_not_mem (s.toErase ++ [op.id])
      (List.mem_append_right _ (List.mem_singleton.mpr rfl)) g q hq
  · show ((CF.foldResults op.loc (op.results.zip rcs)
        { done := s.done, news := [], cur := op, rest := rest,
          ecs := s.existingConstants, fresh := s.fresh }).done ++
        (CF.foldResults op.loc (op.results.zip rcs)
          { done := s.done, news := [], cur := op, rest := rest,
            ecs := s.existingConstants, fresh := s.fresh }).news ++
        [(CF.foldResults op.loc (op.results.zip rcs)
          { done := s.done, news := [], cur := op, rest := rest,
            ecs := s.existingConstants, fresh := s.fresh }).cur]).length = _
    rw [List.length_append, List.length_append,
      CF.foldResults_done_length,
      CF.foldResults_news_length op.loc (op.results.zip rcs) _
        hpairs_lt hpairs_nd]
    rw [hfunc]
    simp only [List.length_singleton, List.length_nil]
    omega
  · intro p hp hused
    obtain ⟨v, cop, hv, hmem, hkind, hloc, hops, hres, hue, hslot⟩ :=
      CF.foldResults_main op.loc (op.results.zip rcs)
        { done := s.done, news := [], cur := op, rest := rest,
          ecs := s.existingConstants, fresh := s.fresh }
        hb0 hpairs_lt hpairs_nd p hp (by rw [hfunc]; exact hused)
    refine ⟨v, cop, ?_, hkind, hloc, hops, hres, ?_, ?_⟩
    · exact List.mem_append.mpr (Or.inl (List.mem_append_right _ hmem))
    · rw [CF.out_eq_func]
      exact hue
    · intro q hq j hj
      obtain ⟨q', hq', hid, hj'⟩ :=
        hslot q (by rw [hfunc]; exact hq) j hj
      rw [CF.out_eq_func]
      exact ⟨q', hq', hid, hj'⟩

/-- Witness for C3 at scenario 1's add Operation. -/
theorem fold_soundness_witness :
    ∃ s' rest',
      CF.foldOperation EX.addFold EX.exSt2 EX.exAdd [EX.exRet] =
        some (s', rest') ∧
      s'.toErase = EX.exSt2.toErase ++ [EX.exAdd.id] ∧
      (∀ g : CF.Func, ∀ q ∈ s'.toErase.foldl CF.eraseOp g,
        q.id ≠ EX.exAdd.id) ∧
      s'.done.length = EX.exSt2.done.length + 1 +
        ((EX.exAdd.results.zip [7]).filter
          (fun p => !CF.useEmpty
            (EX.exSt2.done ++ EX.exAdd :: [EX.exRet]) p.1.1)).length ∧
      (∀ p ∈ EX.exAdd.results.zip [7],
        CF.useEmpty (EX.exSt2.done ++ EX.exAdd :: [EX.exRet]) p.1.1 =
          false →
        ∃ v cop, cop ∈ s'.done ∧ cop.kind = .constant p.2 ∧
          cop.loc = EX.exAdd.loc ∧ cop.operands = [] ∧
          cop.results = [(v, p.1.2)] ∧
          CF.useEmpty (s'.done ++ rest') p.1.1 = true ∧
          (∀ q ∈ EX.exSt2.done ++ EX.exAdd :: [EX.exRet], ∀ j : Nat,
            q.operands[j]? = some p.1.1 →
            ∃ q' ∈ s'.done ++ rest', q'.id = q.id ∧
              q'.operands[j]? = some v)) :=
  fold_soundness EX.addFold EX.exSt2 EX.exAdd [EX.exRet] 0 [7]
    rfl (by decide) (by decide) (by decide) (by decide)

/-! Def-before-use preservation. -/

namespace CF

theorem rauwOp_not_mem {a b : ValueId} {q : Op} (h : a ∉ q.operands) :
    rauwOp a b q = q := by
  have hmap : q.operands.map (fun x => if x = a then b else x) = q.operands := by
    have h1 : q.operands.map (fun x => if x = a then b else x) =
        q.operands.map id :=
      List.map_congr_left fun x hx =>
        if_neg (fun he => h (by rw [← he]; exact hx))
    rw [h1, List.map_id]
  cases q
  simp only [rauwOp] at *
  rw [hmap]

theorem rauw_not_mem {f : Func} {a b : ValueId}
    (h : ∀ q ∈ f, a ∉ q.operands) : rauw f a b = f := by
  unfold rauw
  have h1 : f.map (rauwOp a b) = f.map id :=
    List.map_congr_left fun q hq => rauwOp_not_mem (h q hq)
  rw [h1, List.map_id]

theorem dbu_cons {q : Op} {l : Func} :
    DBU (q :: l) ↔
      (∀ w ∈ q.operands, q.defines w = false ∧
        ∀ d ∈ l, d.defines w = false) ∧ DBU l :=
  Iff.rfl

theorem dbu_rauw {res v : ValueId} :
    ∀ {F : Func}, DBU F → (∀ d ∈ F, d.defines v = false) →
      DBU (rauw F res v) := by
  intro F
  induction F with
  | nil =>
      intro _ _
      trivial
  | cons q l ih =>
      intro hdbu hnodef
      obtain ⟨hhead, htail⟩ := dbu_cons.mp hdbu
      show DBU (rauwOp res v q :: rauw l res v)
      refine dbu_cons.mpr ⟨?_,
        ih htail (fun d hd => hnodef d (List.mem_cons_of_mem _ hd))⟩
      intro w hw
      rw [rauwOp, List.mem_map] at hw
      obtain ⟨y, hy, hyw⟩ := hw
      by_cases hyr : y = res
      · rw [if_pos hyr] at hyw
        subst hyw
        refine ⟨hnodef q (List.mem_cons_self _ _), ?_⟩
        intro d hd
        rw [rauw, List.mem_map] at hd
        obtain ⟨d₀, hd₀, rfl⟩ := hd
        exact hnodef d₀ (List.mem_cons_of_mem _ hd₀)
      · rw [if_neg hyr] at hyw
        subst hyw
        obtain ⟨h1, h2⟩ := hhead y hy
        refine ⟨h1, ?_⟩
        intro d hd
        rw [rauw, List.mem_map] at hd
        obtain ⟨d₀, hd₀, rfl⟩ := hd
        exact h2 d₀ hd₀

theorem dbu_insert {c : Op} (hc : c.operands = []) :
    ∀ {A B : Func}, DBU (A ++ B) →
      (∀ q ∈ A, ∀ w ∈ q.operands, c.defines w = false) →
      DBU (A ++ c :: B) := by
  intro A
  induction A with
  | nil =>
      intro B hdbu hA
      show DBU (c :: B)
      refine dbu_cons.mpr ⟨?_, hdbu⟩
      intro w hw
      rw [hc] at hw
      cases hw
  | cons x A' ih =>
      intro B hdbu hA
      obtain ⟨hhead, htail⟩ := dbu_cons.mp hdbu
      refine dbu_cons.mpr ⟨?_,
        ih htail (fun q hq => hA q (List.mem_cons_of_mem _ hq))⟩
      intro w hw
      obtain ⟨h1, h2⟩ := hhead w hw
      refine ⟨h1, ?_⟩
      intro d hd
      rcases List.mem_append.mp hd with hd | hd
      · exact h2 d (List.mem_append_left _ hd)
      · rcases List.mem_cons.mp hd with rfl | hd
        · exact hA x (List.mem_cons_self _ _) w hw
        · exact h2 d (List.mem_append_right _ hd)

theorem dbu_res_unused_before {r : ValueId} :
    ∀ {l₁ : Func} {q : Op} {l₂ : Func}, DBU (l₁ ++ q :: l₂) →
      q.defines r = true →
      (∀ d ∈ l₁, r ∉ d.operands) ∧ r ∉ q.operands := by
  intro l₁
  induction l₁ with
  | nil =>
      intro q l₂ hdbu hr
      refine ⟨fun d hd => absurd hd (List.not_mem_nil _), ?_⟩
      intro hmem
      obtain ⟨hhead, _⟩ := dbu_cons.mp hdbu
      have hcontra := (hhead r hmem).1
      rw [hr] at hcontra
      cases hcontra
  | cons x l₁' ih =>
      intro q l₂ hdbu hr
      obtain ⟨hhead, htail⟩ := dbu_cons.mp hdbu
      obtain ⟨hprev, hself⟩ := ih htail hr
      refine ⟨?_, hself⟩
      intro d hd
      rcases List.mem_cons.mp hd with rfl | hd
      · intro hmem
        have hcontra := (hhead r hmem).2 q
          (List.mem_append_right _ (List.mem_cons_self _ _))
        rw [hr] at hcontra
        cases hcontra
      · exact hprev d hd

theorem frCst_defines_iff {loc : Loc} {rt : ValueId × Ty} {a : Attr}
    {n : Nat} {w : ValueId} :
    (frCst loc rt a n).defines w = true ↔ w = n + 1 := by
  rw [defines_iff]
  simp [frCst]

theorem dbu_frStep {loc : Loc} {rt : ValueId × Ty} {a : Attr}
    {s : VisitState} (hdbu : DBU s.func) (hb : funcBound s.func s.fresh)
    (hnews : ∀ c ∈ s.news, c.operands = []) (hrt : rt ∈ s.cur.results) :
    DBU (frStep loc rt a s).func ∧ (frStep loc rt a s).done = s.done := by
  have hcurdef : s.cur.defines rt.1 = true := by
    rw [defines_iff]
    exact List.mem_map_of_mem Prod.fst hrt
  have hsplit : s.func = (s.done ++ s.news) ++ s.cur :: s.rest := by
    simp [VisitState.func]
  have hdbu' : DBU ((s.done ++ s.news) ++ s.cur :: s.rest) := by
    rw [← hsplit]
    exact hdbu
  obtain ⟨hbefore, hcurops⟩ := dbu_res_unused_before hdbu' hcurdef
  have hdone_eq : rauw s.done rt.1 (s.fresh + 1) = s.done :=
    rauw_not_mem (fun q hq => hbefore q (List.mem_append_left _ hq))
  have hnodef : ∀ d ∈ s.func, d.defines (s.fresh + 1) = false := by
    intro d hd
    unfold Op.defines
    rw [decide_eq_false_iff_not]
    intro hmem
    rw [List.mem_map] at hmem
    obtain ⟨r, hr, hr1⟩ := hmem
    have hlt := (hb d hd).2.2 r hr
    rw [hr1] at hlt
    exact absurd hlt (Nat.not_lt.mpr (Nat.le_succ _))
  have h1 : DBU (rauw s.func rt.1 (s.fresh + 1)) := dbu_rauw hdbu hnodef
  have h2 : rauw s.func rt.1 (s.fresh + 1) =
      (rauw s.done rt.1 (s.fresh + 1) ++ rauw s.news rt.1 (s.fresh + 1)) ++
      (rauwOp rt.1 (s.fresh + 1) s.cur :: rauw s.rest rt.1 (s.fresh + 1)) := by
    simp [VisitState.func, rauw, List.map_append]
  rw [h2] at h1
  have hcond : ∀ q ∈ rauw s.done rt.1 (s.fresh + 1) ++
      rauw s.news rt.1 (s.fresh + 1), ∀ w ∈ q.operands,
      (frCst loc rt a s.fresh).defines w = false := by
    intro q hq w hw
    rcases List.mem_append.mp hq with hq | hq
    · rw [hdone_eq] at hq
      have hnone : rt.1 ∉ q.operands := hbefore q (List.mem_append_left _ hq)
      have hwlt : w < s.fresh :=
        (hb q (by rw [hsplit]
                  exact List.mem_append_left _ (List.mem_append_left _ hq))).2.1
          w hw
      rw [← Bool.not_eq_true]
      intro hdef
      have := frCst_defines_iff.mp hdef
      rw [this] at hwlt
      exact absurd hwlt (Nat.not_lt.mpr (Nat.le_succ _))
    · rw [rauw, List.mem_map] at hq
      obtain ⟨q₀, hq₀, rfl⟩ := hq
      have hz := hnews q₀ hq₀
      rw [rauwOp_not_mem (by rw [hz]; exact List.not_mem_nil _)] at hw
      rw [hz] at hw
      cases hw
  have h3 := dbu_insert (c := frCst loc rt a s.fresh) rfl h1 hcond
  have hnewssplit : rauw (s.news ++ [frCst loc rt a s.fresh]) rt.1
      (s.fresh + 1) =
      rauw s.news rt.1 (s.fresh + 1) ++ [frCst loc rt a s.fresh] := by
    unfold rauw
    rw [List.map_append]
    congr 1
  have h4 : (frStep loc rt a s).func =
      (rauw s.done rt.1 (s.fresh + 1) ++ rauw s.news rt.1 (s.fresh + 1)) ++
      frCst loc rt a s.fresh ::
        (rauwOp rt.1 (s.fresh + 1) s.cur ::
          rauw s.rest rt.1 (s.fresh + 1)) := by
    unfold frStep VisitState.func
    rw [hnewssplit]
    simp
  constructor
  · rw [h4]
    exact h3
  · show rauw s.done rt.1 (s.fresh + 1) = s.done
    exact hdone_eq

theorem foldResults_dbu (loc : Loc)
    (pairs : List ((ValueId × Ty) × Attr)) :
    ∀ s : VisitState, DBU s.func → funcBound s.func s.fresh →
      (∀ c ∈ s.news, c.operands = []) →
      (∀ p ∈ pairs, p.1 ∈ s.cur.results) →
      DBU (foldResults loc pairs s).func ∧
        (foldResults loc pairs s).done = s.done := by
  induction pairs with
  | nil =>
      intro s hdbu _ _ _
      rw [foldResults_nil]
      exact ⟨hdbu, rfl⟩
  | cons p rs ih =>
      intro s hdbu hb hnews hpairs
      obtain ⟨rt, a⟩ := p
      by_cases hu : useEmpty s.func rt.1 = true
      · rw [foldResults_cons_skip loc rs hu]
        exact ih s hdbu hb hnews
          (fun p' h' => hpairs p' (List.mem_cons_of_mem _ h'))
      · rw [foldResults_cons_use loc rs hu]
        have hrt : rt ∈ s.cur.results := hpairs (rt, a) (List.mem_cons_self _ _)
        obtain ⟨hdbu₁, hdone₁⟩ := dbu_frStep hdbu hb hnews hrt
        have hnews₁ : ∀ c ∈ (frStep loc rt a s).news, c.operands = [] := by
          intro c hc
          have hc2 : c ∈ rauw (s.news ++ [frCst loc rt a s.fresh]) rt.1
            (s.fresh + 1) := hc
          rw [rauw, List.mem_map] at hc2
          obtain ⟨q, hq, rfl⟩ := hc2
          rcases List.mem_append.mp hq with hq | hq
          · have hz := hnews q hq
            rw [rauwOp_not_mem (by rw [hz]; exact List.not_mem_nil _), hz]
          · rw [List.mem_singleton] at hq
            subst hq
            rw [rauwOp_of_no_operands _ _ rfl]
            rfl
        have hpairs₁ : ∀ p' ∈ rs, p'.1 ∈ (frStep loc rt a s).cur.results := by
          intro p' h'
          exact hpairs p' (List.mem_cons_of_mem _ h')
        obtain ⟨hA, hB⟩ := ih (frStep loc rt a s) hdbu₁ (funcBound_frStep hb)
          hnews₁ hpairs₁
        rw [hB]
        exact ⟨hA, hdone₁⟩

theorem foldResults_news_id (loc : Loc)
    (pairs : List ((ValueId × Ty) × Attr)) (n : Nat) :
    ∀ s : VisitState, n ≤ s.fresh → (∀ c ∈ s.news, n ≤ c.id) →
      ∀ c ∈ (foldResults loc pairs s).news, n ≤ c.id := by
  induction pairs with
  | nil =>
      intro s _ h c hc
      rw [foldResults_nil] at hc
      exact h c hc
  | cons p rs ih =>
      intro s hn h c hc
      obtain ⟨rt, a⟩ := p
      by_cases hu : useEmpty s.func rt.1 = true
      · rw [foldResults_cons_skip loc rs hu] at hc
        exact ih s hn h c hc
      · rw [foldResults_cons_use loc rs hu] at hc
        refine ih (frStep loc rt a s)
          (by rw [frStep_fresh]; omega) ?_ c hc
        intro c' hc'
        have hc2 : c' ∈ rauw (s.news ++ [frCst loc rt a s.fresh]) rt.1
          (s.fresh + 1) := hc'
        rw [rauw, List.mem_map] at hc2
        obtain ⟨q, hq, rfl⟩ := hc2
        rcases List.mem_append.mp hq with hq | hq
        · show n ≤ q.id
          exact h q hq
        · rw [List.mem_singleton] at hq
          subst hq
          show n ≤ s.fresh
          exact hn

end CF

/-- C9.  Materialization point: every constant materialized for a folded
result is inserted immediately before the folded Operation (the visited
prefix is untouched, then the new constants, then the folded Operation),
and def-before-use is preserved for the whole rewritten body, so each new
constant's result is defined before every operand slot redirected to it. -/
theorem materialization_point (fold : CF.FoldFn) (s : CF.PassState)
    (op : CF.Op) (rest : CF.Func) (code : Nat) (rcs : List CF.Attr)
    (hk : op.kind = .generic code)
    (hf : fold code (CF.operandConstants (s.done ++ op :: rest) op) = some rcs)
    (ha : rcs.length = op.results.length)
    (hb : CF.funcBound (s.done ++ op :: rest) s.fresh)
    (hdbu : CF.DBU (s.done ++ op :: rest)) :
    ∃ s' rest', CF.foldOperation fold s op rest = some (s', rest') ∧
      (∃ news cur, s'.done = s.done ++ news ++ [cur] ∧ cur.id = op.id ∧
        cur.kind = op.kind ∧ cur.results = op.results ∧
        (∀ c ∈ news, c.isCst = true ∧ c.operands = [] ∧ s.fresh ≤ c.id)) ∧
      CF.DBU (s'.done ++ rest') := by
  have hfunc : ({ done := s.done, news := [], cur := op, rest := rest,
                  ecs := s.existingConstants,
                  fresh := s.fresh } : CF.VisitState).func =
      s.done ++ op :: rest := by
    simp [CF.VisitState.func]
  have hdbu0 : CF.DBU ({ done := s.done, news := [], cur := op, rest := rest,
                         ecs := s.existingConstants,
                         fresh := s.fresh } : CF.VisitState).func := by
    rw [hfunc]
    exact hdbu
  have hb0 : CF.funcBound ({ done := s.done, news := [], cur := op,
                             rest := rest, ecs := s.existingConstants,
                             fresh := s.fresh } : CF.VisitState).func
      s.fresh := by
    rw [hfunc]
    exact hb
  have hpairs : ∀ p ∈ op.results.zip rcs, p.1 ∈
      ({ done := s.done, news := [], cur := op, rest := rest,
         ecs := s.existingConstants,
         fresh := s.fresh } : CF.VisitState).cur.results := by
    intro p hp
    exact (List.of_mem_zip hp).1
  obtain ⟨hdbuT, hdoneT⟩ := CF.foldResults_dbu op.loc (op.results.zip rcs)
    { done := s.done, news := [], cur := op, rest := rest,
      ecs := s.existingConstants, fresh := s.fresh }
    hdbu0 hb0 (fun c hc => absurd hc (List.not_mem_nil _)) hpairs
  refine ⟨_, _, CF.foldOperation_fold hk hf ha, ?_, ?_⟩
  · refine ⟨(CF.foldResults op.loc (op.results.zip rcs)
        { done := s.done, news := [], cur := op, rest := rest,
          ecs := s.existingConstants, fresh := s.fresh }).news,
      (CF.foldResults op.loc (op.results.zip rcs)
        { done := s.done, news := [], cur := op, rest := rest,
          ecs := s.existingConstants, fresh := s.fresh }).cur,
      ?_, ?_, ?_, ?_, ?_⟩
    · rw [hdoneT]
    · exact (CF.foldResults_cur op.loc (op.results.zip rcs) _).1
    · exact (CF.foldResults_cur op.loc (op.results.zip rcs) _).2.1
    · exact (CF.foldResults_cur op.loc (op.results.zip rcs) _).2.2.1
    · intro c hc
      obtain ⟨h1, h2, _⟩ := CF.foldResults_news_inv op.loc
        (op.results.zip rcs) _
        (fun c' hc' => absurd hc' (List.not_mem_nil _)) c hc
      refine ⟨h2, h1, ?_⟩
      exact CF.foldResults_news_id op.loc (op.results.zip rcs) s.fresh _
        (Nat.le_refl _) (fun c' hc' => absurd hc' (List.not_mem_nil _)) c hc
  · rw [CF.out_eq_func]
    exact hdbuT

/-- Witness for C9 at scenario 1's add Operation. -/
theorem materialization_point_witness :
    ∃ s' rest',
      CF.foldOperation EX.addFold EX.exSt2 EX.exAdd [EX.exRet] =
        some (s', rest') ∧
      (∃ news cur, s'.done = EX.exSt2.done ++ news ++ [cur] ∧
        cur.id = EX.exAdd.id ∧ cur.kind = EX.exAdd.kind ∧
        cur.results = EX.exAdd.results ∧
        (∀ c ∈ news, c.isCst = true ∧ c.operands = [] ∧
          EX.exSt2.fresh ≤ c.id)) ∧
      CF.DBU (s'.done ++ rest') :=
  materialization_point EX.addFold EX.exSt2 EX.exAdd [EX.exRet] 0 [7]
    rfl (by decide) (by decide) (by decide) (by decide)

/-! Walk-level preservation lemmas. -/

namespace CF

theorem foldOperation_rest_length {fold : FoldFn} {s : PassState} {op : Op}
    {rest : Func} {s' : PassState} {rest' : Func}
    (h : foldOperation fold s op rest = some (s', rest')) :
    rest'.length = rest.length := by
  cases hk : op.kind with
  | constant a =>
      rw [foldOperation_constant fold s rest hk] at h
      cases h
      rfl
  | generic code =>
      cases hfold : fold code (operandConstants (s.done ++ op :: rest) op) with
      | none =>
          rw [foldOperation_decline hk hfold] at h
          cases h
          rfl
      | some rcs =>
          by_cases ha : rcs.length = op.results.length
          · rw [foldOperation_fold hk hfold ha] at h
            cases h
            exact foldResults_rest_length _ _ _
          · rw [foldOperation_arity_fatal hk hfold ha] at h
            cases h

theorem foldOperation_preserves {fold : FoldFn} {s : PassState} {op : Op}
    {rest : Func} {s' : PassState} {rest' : Func}
    (h : foldOperation fold s op rest = some (s', rest')) :
    ∀ q ∈ s.done ++ op :: rest, ∃ q' ∈ s'.done ++ rest', q'.id = q.id ∧
      q'.kind = q.kind ∧ q'.results = q.results ∧ q'.loc = q.loc ∧
      (q.operands = [] → q' = q) := by
  intro q hq
  cases hk : op.kind with
  | constant a =>
      rw [foldOperation_constant fold s rest hk] at h
      cases h
      refine ⟨q, ?_, rfl, rfl, rfl, rfl, fun _ => rfl⟩
      show q ∈ (s.done ++ [op]) ++ rest
      rw [show (s.done ++ [op]) ++ rest = s.done ++ op :: rest by simp]
      exact hq
  | generic code =>
      cases hfold : fold code (operandConstants (s.done ++ op :: rest) op) with
      | none =>
          rw [foldOperation_decline hk hfold] at h
          cases h
          refine ⟨q, ?_, rfl, rfl, rfl, rfl, fun _ => rfl⟩
          show q ∈ (s.done ++ [op]) ++ rest
          rw [show (s.done ++ [op]) ++ rest = s.done ++ op :: rest by simp]
          exact hq
      | some rcs =>
          by_cases ha : rcs.length = op.results.length
          · rw [foldOperation_fold hk hfold ha] at h
            cases h
            have hq0 : q ∈ ({ done := s.done, news := [], cur := op,
                              rest := rest, ecs := s.existingConstants,
                              fresh := s.fresh } : VisitState).func := by
              show q ∈ s.done ++ [] ++ op :: rest
              simpa using hq
            obtain ⟨q', hq', hid, hkind, hres, hloc, hz⟩ :=
              foldResults_descendant op.loc (op.results.zip rcs) _ q hq0
            refine ⟨q', ?_, hid, hkind, hres, hloc, hz⟩
            rw [out_eq_func]
            exact hq'
          · rw [foldOperation_arity_fatal hk hfold ha] at h
            cases h

theorem walkAux_preserves (fold : FoldFn) :
    ∀ (fuel : Nat) (s : PassState) (rest : Func) (s' : PassState),
      walkAux fold fuel s rest = some s' →
      ∀ q ∈ s.done ++ rest, ∃ q' ∈ s'.done, q'.id = q.id ∧
        q'.kind = q.kind ∧ q'.results = q.results ∧ q'.loc = q.loc ∧
        (q.operands = [] → q' = q) := by
  intro fuel
  induction fuel with
  | zero =>
      intro s rest s' h q hq
      cases rest with
      | nil =>
          cases h
          refine ⟨q, ?_, rfl, rfl, rfl, rfl, fun _ => rfl⟩
          simpa using hq
      | cons op rest2 => cases h
  | succ fuel ih =>
      intro s rest s' h q hq
      cases rest with
      | nil =>
          cases h
          refine ⟨q, ?_, rfl, rfl, rfl, rfl, fun _ => rfl⟩
          simpa using hq
      | cons op rest2 =>
          rw [walkAux] at h
          cases hfo : foldOperation fold s op rest2 with
          | none =>
              rw [hfo] at h
              cases h
          | some out =>
              rw [hfo] at h
              obtain ⟨q₁, hq₁, hid₁, hkind₁, hres₁, hloc₁, hz₁⟩ :=
                foldOperation_preserves hfo q hq
              obtain ⟨q', hq', hid', hkind', hres', hloc', hz'⟩ :=
                ih out.1 out.2 s' h q₁ hq₁
              refine ⟨q', hq', hid'.trans hid₁, hkind'.trans hkind₁,
                hres'.trans hres₁, hloc'.trans hloc₁, fun hops => ?_⟩
              have hq₁q : q₁ = q := hz₁ hops
              rw [hq₁q] at hz'
              exact hz' hops

end CF

/-- C7.  Deferred-deletion ordering: the walk itself erases nothing (every
Operation of the body survives, possibly rewritten, into the walk's
visited list), and all erasures happen post-traversal in two sequential
sweeps: first every Operation recorded in toErase is erased, then the
single dead-constant sweep folds once over existingConstants. -/
theorem deferred_deletion_ordering (fold : CF.FoldFn) (f : CF.Func)
    (fresh : Nat) (s : CF.PassState)
    (hw : CF.walk fold
      { done := [], existingConstants := [], toErase := [], fresh := fresh }
      f = some s) :
    CF.runOnFunction fold f fresh =
      some (s.existingConstants.foldl CF.sweepConstant
        (s.toErase.foldl CF.eraseOp s.done), s) ∧
    (∀ q ∈ f, ∃ q' ∈ s.done, q'.id = q.id ∧ q'.kind = q.kind ∧
      q'.results = q.results ∧ q'.loc = q.loc) := by
  constructor
  · unfold CF.runOnFunction
    rw [show CF.walk fold
      { done := [], existingConstants := [], toErase := [], fresh := fresh }
      f = some s from hw]
  · intro q hq
    obtain ⟨q', hq', h1, h2, h3, h4, _⟩ :=
      CF.walkAux_preserves fold f.length _ f s hw q (by simpa using hq)
    exact ⟨q', hq', h1, h2, h3, h4⟩

/-- Witness for C7 on scenario 1. -/
theorem deferred_deletion_ordering_witness :
    CF.runOnFunction EX.addFold EX.exFunc 200 =
      some (EX.exWalkS.existingConstants.foldl CF.sweepConstant
        (EX.exWalkS.toErase.foldl CF.eraseOp EX.exWalkS.done), EX.exWalkS) ∧
    (∀ q ∈ EX.exFunc, ∃ q' ∈ EX.exWalkS.done, q'.id = q.id ∧
      q'.kind = q.kind ∧ q'.results = q.results ∧ q'.loc = q.loc) :=
  deferred_deletion_ordering EX.addFold EX.exFunc 200 EX.exWalkS (by decide)

/-! Small helpers on identities, definers and use counts. -/

namespace CF

theorem eq_of_mem_id {f : Func} {a b : Op} (h : NodupIds f) (ha : a ∈ f)
    (hb : b ∈ f) (hid : a.id = b.id) : a = b :=
  List.inj_on_of_nodup_map h ha hb hid

theorem exists_zip_right {α β : Type} :
    ∀ {l₁ : List α} {l₂ : List β}, l₁.length = l₂.length →
      ∀ a ∈ l₁, ∃ b, (a, b) ∈ l₁.zip l₂ := by
  intro l₁
  induction l₁ with
  | nil =>
      intro l₂ _ a ha
      cases ha
  | cons x xs ih =>
      intro l₂ hlen a ha
      cases l₂ with
      | nil => cases hlen
      | cons y ys =>
          rcases List.mem_cons.mp ha with rfl | ha'
          · exact ⟨y, List.mem_cons_self _ _⟩
          · obtain ⟨b, hb⟩ := ih (by simpa using hlen) a ha'
            exact ⟨b, List.mem_cons_of_mem _ hb⟩

theorem isCst_congr {a b : Op} (h : a.kind = b.kind) : a.isCst = b.isCst := by
  unfold Op.isCst
  rw [h]

theorem isCst_of_constant {op : Op} {a : Attr} (h : op.kind = .constant a) :
    op.isCst = true := by
  unfold Op.isCst
  rw [h]

theorem not_isCst_of_generic {op : Op} {c : Nat} (h : op.kind = .generic c) :
    op.isCst = false := by
  unfold Op.isCst
  rw [h]

theorem constant_of_isCst {op : Op} (h : op.isCst = true) :
    ∃ a, op.kind = .constant a := by
  unfold Op.isCst at h
  cases hk : op.kind with
  | constant a => exact ⟨a, rfl⟩
  | generic c =>
      rw [hk] at h
      cases h

theorem cst_results_shape {op : Op} (h : op.results.length = 1) :
    ∃ v t, op.results = [(v, t)] ∧ constantResult op = v := by
  obtain ⟨vt, hvt⟩ := List.length_eq_one.mp h
  refine ⟨vt.1, vt.2, by rw [hvt], ?_⟩
  unfold constantResult
  rw [hvt]
  rfl

theorem defines_of_results {op : Op} {v : ValueId} {t : Ty}
    (h : op.results = [(v, t)]) : op.defines v = true := by
  rw [defines_iff, h]
  simp

theorem defines_eq_of_single {op : Op} {v w : ValueId} {t : Ty}
    (h : op.results = [(v, t)]) (hd : op.defines w = true) : w = v := by
  rw [defines_iff, h] at hd
  simpa using hd

theorem defines_congr {a b : Op} {w : ValueId} (h : a.results = b.results) :
    a.defines w = b.defines w := by
  unfold Op.defines
  rw [h]

theorem constantValue_rauwOp (a b : ValueId) (op : Op) :
    (rauwOp a b op).constantValue = op.constantValue := by
  unfold Op.constantValue
  rw [rauwOp_kind]

theorem useEmpty_false_of_user {g : Func} {u : Op} {v : ValueId}
    (hu : u ∈ g) (hv : v ∈ u.operands) : useEmpty g v = false := by
  cases h : useEmpty g v with
  | false => rfl
  | true => exact absurd hv (useEmpty_iff.mp h u hu)

theorem user_of_useEmpty_false {g : Func} {v : ValueId}
    (h : useEmpty g v = false) : ∃ u ∈ g, v ∈ u.operands := by
  by_contra hcon
  push_neg at hcon
  rw [useEmpty_iff.mpr hcon] at h
  cases h

theorem getDefiningOp_none_iff {f : Func} {v : ValueId} :
    getDefiningOp f v = none ↔ ∀ d ∈ f, d.defines v = false := by
  unfold getDefiningOp
  rw [List.find?_eq_none]
  constructor
  · intro h d hd
    have := h d hd
    cases hdef : d.defines v with
    | false => rfl
    | true => exact absurd hdef this
  · intro h d hd
    rw [h d hd]
    exact Bool.false_ne_true

theorem getDefiningOp_some_of_mem {f : Func} {v : ValueId} {d : Op}
    (hd : d ∈ f) (hdd : d.defines v = true) :
    ∃ e, getDefiningOp f v = some e ∧ e ∈ f ∧ e.defines v = true := by
  cases hgd : getDefiningOp f v with
  | none =>
      have := getDefiningOp_none_iff.mp hgd d hd
      rw [hdd] at this
      cases this
  | some e =>
      obtain ⟨h1, h2⟩ := getDefiningOp_mem hgd
      exact ⟨e, rfl, h1, h2⟩

theorem getDefiningOp_eq_of_unique {v : ValueId} {d : Op} :
    ∀ f : Func, d ∈ f → d.defines v = true →
      (∀ e ∈ f, e.defines v = true → e = d) →
      getDefiningOp f v = some d := by
  intro f
  induction f with
  | nil =>
      intro hd _ _
      cases hd
  | cons x xs ih =>
      intro hd hdd huniq
      by_cases hx : x.defines v = true
      · have hxd : x = d := huniq x (List.mem_cons_self _ _) hx
        unfold getDefiningOp
        simp only [List.find?_cons, hx]
        rw [hxd]
      · have hx' : x.defines v = false := Bool.eq_false_iff.mpr hx
        unfold getDefiningOp
        simp only [List.find?_cons, hx']
        have hdxs : d ∈ xs := by
          rcases List.mem_cons.mp hd with rfl | h
          · exact absurd hdd hx
          · exact h
        exact ih hdxs hdd (fun e he hev => huniq e (List.mem_cons_of_mem _ he) hev)

end CF

/-! Identity uniqueness and operand-constant stability through the
per-result loop. -/

namespace CF

theorem foldResults_ids (loc : Loc)
    (pairs : List ((ValueId × Ty) × Attr)) :
    ∀ s : VisitState, funcBound s.func s.fresh → NodupIds s.func →
      NodupIds (foldResults loc pairs s).func := by
  induction pairs with
  | nil =>
      intro s _ h
      simpa [foldResults_nil] using h
  | cons p rs ih =>
      intro s hb hids
      obtain ⟨rt, a⟩ := p
      by_cases hu : useEmpty s.func rt.1 = true
      · rw [foldResults_cons_skip loc rs hu]
        exact ih s hb hids
      · rw [foldResults_cons_use loc rs hu]
        refine ih _ (funcBound_frStep hb) ?_
        have hperm : (s.done ++ (s.news ++ [frCst loc rt a s.fresh]) ++
            s.cur :: s.rest).Perm (frCst loc rt a s.fresh :: s.func) := by
          have h1 : s.done ++ (s.news ++ [frCst loc rt a s.fresh]) ++
              s.cur :: s.rest =
              (s.done ++ s.news) ++
                frCst loc rt a s.fresh :: (s.cur :: s.rest) := by
            simp
          have h2 : s.func = (s.done ++ s.news) ++ (s.cur :: s.rest) := by
            simp [VisitState.func]
          rw [h1, h2]
          exact List.perm_middle
        have hmap : (frStep loc rt a s).func.map Op.id =
            (s.done ++ (s.news ++ [frCst loc rt a s.fresh]) ++
              s.cur :: s.rest).map Op.id := by
          rw [func_frStep, rauw_map_id]
        show ((frStep loc rt a s).func.map Op.id).Nodup
        rw [hmap]
        refine ((hperm.map Op.id).nodup_iff).mpr ?_
        rw [List.map_cons, List.nodup_cons]
        refine ⟨?_, hids⟩
        intro hmem
        rw [List.mem_map] at hmem
        obtain ⟨q, hq, hqid⟩ := hmem
        have := (hb q hq).1
        rw [hqid] at this
        exact Nat.lt_irrefl _ this

theorem getDefiningOp_insert_eq {loc : Loc} {rt : ValueId × Ty} {a : Attr}
    {s : VisitState} {v : ValueId} (hv : v < s.fresh) :
    getDefiningOp (s.done ++ (s.news ++ [frCst loc rt a s.fresh]) ++
        s.cur :: s.rest) v =
      getDefiningOp s.func v := by
  have hc : getDefiningOp [frCst loc rt a s.fresh] v = none := by
    refine getDefiningOp_none_iff.mpr ?_
    intro d hd
    rw [List.mem_singleton] at hd
    subst hd
    cases hdef : (frCst loc rt a s.fresh).defines v with
    | false => rfl
    | true => exact absurd (frCst_defines_iff.mp hdef) (ne_succ_of_lt hv)
  show getDefiningOp (s.done ++ (s.news ++ [frCst loc rt a s.fresh]) ++
      s.cur :: s.rest) v =
    getDefiningOp (s.done ++ s.news ++ s.cur :: s.rest) v
  simp only [getDefiningOp_append, hc, Option.or_none, Option.or_assoc]

theorem operandConstant_frStep {loc : Loc} {rt : ValueId × Ty} {a : Attr}
    {s : VisitState} {v : ValueId} (hv : v < s.fresh) :
    operandConstant (frStep loc rt a s).func v = operandConstant s.func v := by
  unfold operandConstant
  rw [func_frStep, getDefiningOp_rauw, getDefiningOp_insert_eq hv]
  cases hgd : getDefiningOp s.func v with
  | none => rfl
  | some d => exact constantValue_rauwOp _ _ d

theorem foldResults_operandConstant_stable (loc : Loc)
    (pairs : List ((ValueId × Ty) × Attr)) :
    ∀ s : VisitState, ∀ v : ValueId, v < s.fresh →
      operandConstant (foldResults loc pairs s).func v =
        operandConstant s.func v := by
  induction pairs with
  | nil =>
      intro s v _
      rw [foldResults_nil]
  | cons p rs ih =>
      intro s v hv
      obtain ⟨rt, a⟩ := p
      by_cases hu : useEmpty s.func rt.1 = true
      · rw [foldResults_cons_skip loc rs hu]
        exact ih s v hv
      · rw [foldResults_cons_use loc rs hu]
        rw [ih (frStep loc rt a s) v (by rw [frStep_fresh]; exact lt_add_two hv)]
        exact operandConstant_frStep hv

end CF

/-! The post-traversal erase sweep and dead-constant sweep. -/

namespace CF

theorem sweepConstant_neg {f : Func} {c : ValueId}
    (h : useEmpty f c = false) : sweepConstant f c = f := by
  unfold sweepConstant
  rw [h]
  rfl

theorem sweepConstant_pos_some {f : Func} {c : ValueId} {d : Op}
    (h : useEmpty f c = true) (hd : getDefiningOp f c = some d) :
    sweepConstant f c = eraseOp f d.id := by
  unfold sweepConstant
  rw [h, hd]
  rfl

theorem sweepConstant_pos_none {f : Func} {c : ValueId}
    (h : useEmpty f c = true) (hd : getDefiningOp f c = none) :
    sweepConstant f c = f := by
  unfold sweepConstant
  rw [h, hd]
  rfl

theorem eraseOp_sublist (f : Func) (oid : Nat) : (eraseOp f oid).Sublist f :=
  List.filter_sublist f

theorem sweepConstant_sublist (f : Func) (c : ValueId) :
    (sweepConstant f c).Sublist f := by
  cases h : useEmpty f c with
  | false =>
      rw [sweepConstant_neg h]
  | true =>
      cases hd : getDefiningOp f c with
      | none => rw [sweepConstant_pos_none h hd]
      | some d =>
          rw [sweepConstant_pos_some h hd]
          exact eraseOp_sublist f d.id

theorem foldl_eraseOp_sublist (l : List Nat) :
    ∀ g : Func, (l.foldl eraseOp g).Sublist g := by
  induction l with
  | nil =>
      intro g
      exact List.Sublist.refl g
  | cons x xs ih =>
      intro g
      exact (ih (eraseOp g x)).trans (eraseOp_sublist g x)

theorem foldl_sweep_sublist (l : List ValueId) :
    ∀ g : Func, (l.foldl sweepConstant g).Sublist g := by
  induction l with
  | nil =>
      intro g
      exact List.Sublist.refl g
  | cons c cs ih =>
      intro g
      exact (ih (sweepConstant g c)).trans (sweepConstant_sublist g c)

theorem mem_foldl_eraseOp_of_not (l : List Nat) :
    ∀ g : Func, ∀ q ∈ g, (∀ oid ∈ l, q.id ≠ oid) →
      q ∈ l.foldl eraseOp g := by
  induction l with
  | nil =>
      intro g q hq _
      exact hq
  | cons x xs ih =>
      intro g q hq h
      refine ih (eraseOp g x) q ?_ (fun oid ho => h oid (List.mem_cons_of_mem _ ho))
      exact List.mem_filter.mpr ⟨hq, decide_eq_true (h x (List.mem_cons_self _ _))⟩

theorem nodupIds_sublist {f g : Func} (h : g.Sublist f) (hn : NodupIds f) :
    NodupIds g :=
  hn.sublist (h.map Op.id)

theorem uniqueDefs_subset {f g : Func} (hsub : ∀ x ∈ g, x ∈ f)
    (h : UniqueDefs f) : UniqueDefs g :=
  fun d1 h1 d2 h2 r hr hd => h d1 (hsub d1 h1) d2 (hsub d2 h2) r hr hd

theorem foldl_sweep_noop (l : List ValueId) :
    ∀ g : Func, (∀ c ∈ l, useEmpty g c = false) →
      l.foldl sweepConstant g = g := by
  induction l with
  | nil =>
      intro g _
      rfl
  | cons c cs ih =>
      intro g h
      rw [List.foldl_cons, sweepConstant_neg (h c (List.mem_cons_self _ _))]
      exact ih g (fun c2 hc2 => h c2 (List.mem_cons_of_mem _ hc2))

theorem sweep_user_stable {g : Func} {c : ValueId} {u : Op}
    (hnod : NodupIds g)
    (hzero : ∀ e ∈ g, e.defines c = true → e.operands = [])
    (hu : u ∈ g) (hops : u.operands ≠ []) : u ∈ sweepConstant g c := by
  cases h : useEmpty g c with
  | false =>
      rw [sweepConstant_neg h]
      exact hu
  | true =>
      cases hgd : getDefiningOp g c with
      | none =>
          rw [sweepConstant_pos_none h hgd]
          exact hu
      | some d =>
          rw [sweepConstant_pos_some h hgd]
          obtain ⟨hdg, hdd⟩ := getDefiningOp_mem hgd
          refine List.mem_filter.mpr ⟨hu, decide_eq_true ?_⟩
          intro hcontra
          have hud : u = d := eq_of_mem_id hnod hu hdg hcontra
          have : u.operands = [] := hzero u hu (by rw [hud]; exact hdd)
          exact hops this

theorem foldl_sweep_user_stable (l : List ValueId) :
    ∀ g : Func, NodupIds g →
      (∀ c ∈ l, ∀ e ∈ g, e.defines c = true → e.operands = []) →
      ∀ u ∈ g, u.operands ≠ [] → u ∈ l.foldl sweepConstant g := by
  induction l with
  | nil =>
      intro g _ _ u hu _
      exact hu
  | cons c cs ih =>
      intro g hnod hzero u hu hops
      rw [List.foldl_cons]
      refine ih (sweepConstant g c)
        (nodupIds_sublist (sweepConstant_sublist g c) hnod)
        (fun c2 hc2 e he hd => hzero c2 (List.mem_cons_of_mem _ hc2) e
          ((sweepConstant_sublist g c).subset he) hd)
        u ?_ hops
      exact sweep_user_stable hnod
        (fun e he hd => hzero c (List.mem_cons_self _ _) e he hd) hu hops

theorem eraseOp_no_definer {g : Func} {c : ValueId} {d : Op}
    (hud : UniqueDefs g) (hd : d ∈ g) (hdd : d.defines c = true) :
    ∀ e ∈ eraseOp g d.id, e.defines c = false := by
  intro e he
  have heg : e ∈ g := List.mem_of_mem_filter he
  cases hdef : e.defines c with
  | false => rfl
  | true =>
      obtain ⟨r, hr, hrc⟩ := List.mem_map.mp (defines_iff.mp hdd)
      have hid : d.id = e.id := hud d hd e heg r hr (by rw [hrc]; exact hdef)
      have hne := List.of_mem_filter he
      simp only [decide_eq_true_eq] at hne
      exact absurd hid.symm hne

theorem foldl_sweep_complete (l : List ValueId) :
    ∀ g : Func, NodupIds g → UniqueDefs g →
      (∀ c ∈ l, ∀ e ∈ g, e.defines c = true → e.operands = []) →
      ∀ c ∈ l, useEmpty (l.foldl sweepConstant g) c = false ∨
        ∀ e ∈ l.foldl sweepConstant g, e.defines c = false := by
  induction l with
  | nil =>
      intro g _ _ _ c hc
      cases hc
  | cons c0 cs ih =>
      intro g hnod hud hzero c hc
      rw [List.foldl_cons]
      have hsub' : ∀ x ∈ sweepConstant g c0, x ∈ g :=
        fun x hx => (sweepConstant_sublist g c0).subset hx
      rcases List.mem_cons.mp hc with rfl | hc'
      · by_cases hue : useEmpty g c = true
        · cases hgd : getDefiningOp g c with
          | none =>
              right
              intro e he
              exact getDefiningOp_none_iff.mp hgd e
                (hsub' e ((foldl_sweep_sublist cs _).subset he))
          | some d =>
              right
              obtain ⟨hdg, hdd⟩ := getDefiningOp_mem hgd
              have hstep := sweepConstant_pos_some hue hgd
              intro e he
              have he2 : e ∈ sweepConstant g c :=
                (foldl_sweep_sublist cs _).subset he
              rw [hstep] at he2
              exact eraseOp_no_definer hud hdg hdd e he2
        · left
          have hf : useEmpty g c = false := Bool.eq_false_iff.mpr hue
          obtain ⟨u, hu, hvu⟩ := user_of_useEmpty_false hf
          have hops : u.operands ≠ [] := by
            intro h0
            rw [h0] at hvu
            cases hvu
          have hu' : u ∈ sweepConstant g c :=
            sweep_user_stable hnod
              (fun e he hd => hzero c (List.mem_cons_self _ _) e he hd) hu hops
          exact useEmpty_false_of_user
            (foldl_sweep_user_stable cs (sweepConstant g c)
              (nodupIds_sublist (sweepConstant_sublist g c) hnod)
              (fun c2 hc2 e he hd => hzero c2 (List.mem_cons_of_mem _ hc2) e
                (hsub' e he) hd)
              u hu' hops) hvu
      · exact ih (sweepConstant g c0)
          (nodupIds_sublist (sweepConstant_sublist g c0) hnod)
          (uniqueDefs_subset hsub' hud)
          (fun c2 hc2 e he hd => hzero c2 (List.mem_cons_of_mem _ hc2) e
            (hsub' e he) hd)
          c hc'

theorem foldl_sweep_definer_stable (l : List ValueId) :
    ∀ g : Func, ∀ {v : ValueId} {d u : Op}, NodupIds g →
      (∀ c ∈ l, ∀ e ∈ g, e.defines c = true → e.operands = []) →
      (∀ c ∈ l, ∀ e ∈ g, e.defines c = true → e.defines v = true → c = v) →
      d ∈ g → d.defines v = true → u ∈ g → v ∈ u.operands →
      d ∈ l.foldl sweepConstant g ∧ u ∈ l.foldl sweepConstant g := by
  induction l with
  | nil =>
      intro g v d u _ _ _ hd _ hu _
      exact ⟨hd, hu⟩
  | cons c0 cs ih =>
      intro g v d u hnod hzero hstar hd hdv hu hvu
      rw [List.foldl_cons]
      have hsub' : ∀ x ∈ sweepConstant g c0, x ∈ g :=
        fun x hx => (sweepConstant_sublist g c0).subset hx
      have hstep : d ∈ sweepConstant g c0 ∧ u ∈ sweepConstant g c0 := by
        cases hue : useEmpty g c0 with
        | false =>
            rw [sweepConstant_neg hue]
            exact ⟨hd, hu⟩
        | true =>
            cases hgd : getDefiningOp g c0 with
            | none =>
                rw [sweepConstant_pos_none hue hgd]
                exact ⟨hd, hu⟩
            | some e0 =>
                obtain ⟨he0g, he0d⟩ := getDefiningOp_mem hgd
                rw [sweepConstant_pos_some hue hgd]
                constructor
                · refine List.mem_filter.mpr ⟨hd, decide_eq_true ?_⟩
                  intro hid
                  have hde : d = e0 := eq_of_mem_id hnod hd he0g hid
                  have hdc0 : d.defines c0 = true := by
                    rw [hde]
                    exact he0d
                  have hc0v : c0 = v :=
                    hstar c0 (List.mem_cons_self _ _) d hd hdc0 hdv
                  rw [hc0v] at hue
                  exact absurd hvu (useEmpty_iff.mp hue u hu)
                · refine List.mem_filter.mpr ⟨hu, decide_eq_true ?_⟩
                  intro hid
                  have hueq : u = e0 := eq_of_mem_id hnod hu he0g hid
                  have : u.operands = [] :=
                    hzero c0 (List.mem_cons_self _ _) u hu
                      (by rw [hueq]; exact he0d)
                  rw [this] at hvu
                  cases hvu
      exact ih (sweepConstant g c0)
        (nodupIds_sublist (sweepConstant_sublist g c0) hnod)
        (fun c2 hc2 e he hdef => hzero c2 (List.mem_cons_of_mem _ hc2) e
          (hsub' e he) hdef)
        (fun c2 hc2 e he hdef hev => hstar c2 (List.mem_cons_of_mem _ hc2) e
          (hsub' e he) hdef hev)
        hstep.1 hdv hstep.2 hvu

theorem foldl_sweep_removes (l : List ValueId) :
    ∀ g : Func, ∀ {v : ValueId} {cop : Op}, NodupIds g → UniqueDefs g →
      cop ∈ g → cop.defines v = true → useEmpty g v = true → v ∈ l →
      ∀ q ∈ l.foldl sweepConstant g, q.id ≠ cop.id := by
  induction l with
  | nil =>
      intro g v cop _ _ _ _ _ hv
      cases hv
  | cons c0 cs ih =>
      intro g v cop hnod hud hcop hdef hue hvl q hq
      rw [List.foldl_cons] at hq
      have hsub' : ∀ x ∈ sweepConstant g c0, x ∈ g :=
        fun x hx => (sweepConstant_sublist g c0).subset hx
      rcases List.mem_cons.mp hvl with rfl | hvl'
      · obtain ⟨e0, hgd, he0g, he0d⟩ := getDefiningOp_some_of_mem hcop hdef
        have hstep := sweepConstant_pos_some hue hgd
        have hide : cop.id = e0.id := by
          obtain ⟨r, hr, hrc⟩ := List.mem_map.mp (defines_iff.mp hdef)
          exact hud cop hcop e0 he0g r hr (by rw [hrc]; exact he0d)
        have hq2 : q ∈ sweepConstant g v := (foldl_sweep_sublist cs _).subset hq
        rw [hstep] at hq2
        have := List.of_mem_filter hq2
        simp only [decide_eq_true_eq] at this
        rw [hide]
        exact this
      · by_cases hcop' : cop ∈ sweepConstant g c0
        · exact ih (sweepConstant g c0)
            (nodupIds_sublist (sweepConstant_sublist g c0) hnod)
            (uniqueDefs_subset hsub' hud)
            hcop' hdef (useEmpty_sublist hsub' hue) hvl' q hq
        · cases hue0 : useEmpty g c0 with
          | false =>
              rw [sweepConstant_neg hue0] at hcop'
              exact absurd hcop hcop'
          | true =>
              cases hgd0 : getDefiningOp g c0 with
              | none =>
                  rw [sweepConstant_pos_none hue0 hgd0] at hcop'
                  exact absurd hcop hcop'
              | some e0 =>
                  have hstep := sweepConstant_pos_some hue0 hgd0
                  rw [hstep] at hcop'
                  have hideq : cop.id = e0.id := by
                    by_contra hne
                    exact hcop' (List.mem_filter.mpr ⟨hcop, decide_eq_true hne⟩)
                  have hq2 : q ∈ sweepConstant g c0 :=
                    (foldl_sweep_sublist cs _).subset hq
                  rw [hstep] at hq2
                  have := List.of_mem_filter hq2
                  simp only [decide_eq_true_eq] at this
                  rw [hideq]
                  exact this

end CF

/-! Preservation of the walk invariant across one foldOperation visit. -/

namespace CF

theorem winv_fold_case {fold : FoldFn} {s : PassState} {op : Op}
    {rest : Func} {code : Nat} {rcs : List Attr}
    (s0 t : VisitState)
    (hk : op.kind = .generic code)
    (hfold : fold code (operandConstants (s.done ++ op :: rest) op) = some rcs)
    (ha : rcs.length = op.results.length)
    (hinv : WInv fold s (op :: rest))
    (hs0 : s0 = { done := s.done, news := [], cur := op, rest := rest,
                  ecs := s.existingConstants, fresh := s.fresh })
    (ht : t = foldResults op.loc (op.results.zip rcs) s0) :
    WInv fold
      { done := t.done ++ t.news ++ [t.cur], existingConstants := t.ecs,
        toErase := s.toErase ++ [op.id], fresh := t.fresh } t.rest := by
  have hfunc0 : s0.func = s.done ++ op :: rest := by
    rw [hs0]
    simp [VisitState.func]
  have hfr0 : s0.fresh = s.fresh := by rw [hs0]
  have hecs0 : s0.ecs = s.existingConstants := by rw [hs0]
  have hnews0 : s0.news = ([] : Func) := by rw [hs0]
  have hcur0 : s0.cur = op := by rw [hs0]
  have hdone0 : s0.done = s.done := by rw [hs0]
  have hb0 : funcBound s0.func s0.fresh := by
    rw [hfunc0, hfr0]
    exact hinv.bound
  have hdbu0 : DBU s0.func := by
    rw [hfunc0]
    exact hinv.dbu
  have hids0 : NodupIds s0.func := by
    rw [hfunc0]
    exact hinv.ids
  have hud0 : UniqueDefs s0.func := by
    rw [hfunc0]
    exact hinv.udefs
  have hopmem : op ∈ s.done ++ op :: rest :=
    List.mem_append_right _ (List.mem_cons_self _ _)
  have hopbound := hinv.bound op hopmem
  have hnz : ∀ c ∈ s0.news, c.operands = [] := by
    intro c hc
    rw [hnews0] at hc
    exact absurd hc (List.not_mem_nil _)
  have hpc : ∀ p ∈ op.results.zip rcs, p.1 ∈ s0.cur.results := by
    intro p hp
    rw [hcur0]
    exact (List.of_mem_zip hp).1
  obtain ⟨hdbu_t, hdone_t⟩ := foldResults_dbu op.loc
    (op.results.zip rcs) s0 hdbu0 hb0 hnz hpc
  rw [← ht] at hdbu_t hdone_t
  rw [hdone0] at hdone_t
  have hout : (t.done ++ t.news ++ [t.cur]) ++ t.rest = t.func := out_eq_func t
  have hb_t : funcBound t.func t.fresh := by
    have := foldResults_bound op.loc (op.results.zip rcs) s0 hb0
    rw [← ht] at this
    exact this
  have hfresh_le : s.fresh ≤ t.fresh := by
    have := foldResults_fresh_le op.loc (op.results.zip rcs) s0
    rw [← ht, hfr0] at this
    exact this
  have horigin := foldResults_origin op.loc (op.results.zip rcs) s0
  rw [← ht] at horigin
  have hcur := foldResults_cur op.loc (op.results.zip rcs) s0
  rw [← ht, hcur0] at hcur
  have hnewsinv := foldResults_news_inv op.loc (op.results.zip rcs) s0
    (by
      intro c hc
      rw [hnews0] at hc
      exact absurd hc (List.not_mem_nil _))
  rw [← ht] at hnewsinv
  refine ⟨?_, ?_, ?_, ?_, ?_, ?_, ?_, ?_, ?_, ?_, ?_⟩
  · show funcBound ((t.done ++ t.news ++ [t.cur]) ++ t.rest) t.fresh
    rw [hout]
    exact hb_t
  · show DBU ((t.done ++ t.news ++ [t.cur]) ++ t.rest)
    rw [hout]
    exact hdbu_t
  · show NodupIds ((t.done ++ t.news ++ [t.cur]) ++ t.rest)
    rw [hout]
    have := foldResults_ids op.loc (op.results.zip rcs) s0 hb0 hids0
    rw [← ht] at this
    exact this
  · show UniqueDefs ((t.done ++ t.news ++ [t.cur]) ++ t.rest)
    rw [hout]
    intro d1 hd1 d2 hd2 r hr hdef
    rcases horigin d1 hd1 with ⟨q1, hq1, hid1, _, hres1, _, _⟩ |
      ⟨hfr1, _, _, vt1, hres1, hvt1⟩
    · rcases horigin d2 hd2 with ⟨q2, hq2, hid2, _, hres2, _, _⟩ |
        ⟨hfr2, _, _, vt2, hres2, hvt2⟩
      · have hq2def : q2.defines r.1 = true := by
          rw [← defines_congr hres2]
          exact hdef
        have := hud0 q1 hq1 q2 hq2 r (by rw [← hres1]; exact hr) hq2def
        rw [hid1, hid2]
        exact this
      · have hrlt : r.1 < s.fresh := by
          have := (hb0 q1 hq1).2.2 r (by rw [← hres1]; exact hr)
          rw [hfr0] at this
          exact this
        have hr1 : r.1 = vt2.1 := by
          rw [defines_iff, hres2] at hdef
          simpa using hdef
        rw [hfr0] at hfr2
        rw [hvt2] at hr1
        rw [hr1] at hrlt
        exact absurd (Nat.lt_of_le_of_lt hfr2 (Nat.lt_of_succ_lt hrlt))
          (Nat.lt_irrefl _)
    · rcases horigin d2 hd2 with ⟨q2, hq2, hid2, _, hres2, _, _⟩ |
        ⟨hfr2, _, _, vt2, hres2, hvt2⟩
      · have hrvt : r = vt1 := by
          rw [hres1] at hr
          simpa using hr
        have hq2def : q2.defines r.1 = true := by
          rw [← defines_congr hres2]
          exact hdef
        have hrlt : r.1 < s.fresh := by
          obtain ⟨r2, hr2, hr2v⟩ := List.mem_map.mp (defines_iff.mp hq2def)
          have := (hb0 q2 hq2).2.2 r2 hr2
          rw [hr2v, hfr0] at this
          exact this
        rw [hfr0] at hfr1
        rw [hrvt, hvt1] at hrlt
        exact absurd (Nat.lt_of_le_of_lt hfr1 (Nat.lt_of_succ_lt hrlt))
          (Nat.lt_irrefl _)
      · have hrvt : r = vt1 := by
          rw [hres1] at hr
          simpa using hr
        have hr2 : r.1 = vt2.1 := by
          rw [defines_iff, hres2] at hdef
          simpa using hdef
        have hsucc : d1.id + 1 = d2.id + 1 := by
          rw [← hvt1, ← hrvt, hr2, hvt2]
        exact Nat.succ.inj hsucc
  · show NodupResults ((t.done ++ t.news ++ [t.cur]) ++ t.rest)
    rw [hout]
    intro d hd
    rcases horigin d hd with ⟨q, hq, _, _, hres, _, _⟩ | ⟨_, _, _, vt, hres, _⟩
    · rw [hres]
      rw [hfunc0] at hq
      exact hinv.nres q hq
    · rw [hres]
      simp
  · show ConstantsWF ((t.done ++ t.news ++ [t.cur]) ++ t.rest)
    rw [hout]
    intro d hd hcst
    rcases horigin d hd with ⟨q, hq, _, hkind, _, _, hzero⟩ |
      ⟨_, hops, _, vt, hres, _⟩
    · have hqcst : q.isCst = true := by
        rw [← isCst_congr hkind]
        exact hcst
      rw [hfunc0] at hq
      obtain ⟨hops0, hlen0⟩ := hinv.cwf q hq hqcst
      have hdq : d = q := hzero hops0
      rw [hdq]
      exact ⟨hops0, hlen0⟩
    · exact ⟨hops, by rw [hres]; rfl⟩
  · intro oid hoid
    show oid < t.fresh
    rcases List.mem_append.mp hoid with hoid | hoid
    · exact Nat.lt_of_lt_of_le (hinv.teB oid hoid) hfresh_le
    · rw [List.mem_singleton] at hoid
      subst hoid
      exact Nat.lt_of_lt_of_le hopbound.1 hfresh_le
  · intro c hc hcst
    show constantResult c ∈ t.ecs
    rcases List.mem_append.mp hc with hc | hc
    · rcases List.mem_append.mp hc with hc | hc
      · rw [hdone_t] at hc
        have hreg := hinv.reg c hc hcst
        have := foldResults_ecs_sub op.loc (op.results.zip rcs) s0
          (constantResult c) (by rw [hecs0]; exact hreg)
        rw [← ht] at this
        exact this
      · exact (hnewsinv c hc).2.2
    · rw [List.mem_singleton] at hc
      subst hc
      rw [isCst_congr hcur.2.1, not_isCst_of_generic hk] at hcst
      cases hcst
  · intro q hq code2 hqk hqe
    show fold code2
      (operandConstants ((t.done ++ t.news ++ [t.cur]) ++ t.rest) q) = none
    rw [hout]
    rcases List.mem_append.mp hq with hq | hq
    · rcases List.mem_append.mp hq with hq | hq
      · rw [hdone_t] at hq
        have hqe' : q.id ∉ s.toErase :=
          fun hmem => hqe (List.mem_append_left _ hmem)
        have hnoneq := hinv.declined q hq code2 hqk hqe'
        have hoc : operandConstants t.func q =
            operandConstants (s.done ++ op :: rest) q := by
          unfold operandConstants
          refine List.map_congr_left ?_
          intro v hv
          have hvlt : v < s0.fresh := by
            rw [hfr0]
            exact (hinv.bound q (List.mem_append_left _ hq)).2.1 v hv
          have := foldResults_operandConstant_stable op.loc
            (op.results.zip rcs) s0 v hvlt
          rw [← ht, hfunc0] at this
          exact this
        rw [hoc]
        exact hnoneq
      · have := (hnewsinv q hq).2.1
        rw [not_isCst_of_generic hqk] at this
        cases this
    · rw [List.mem_singleton] at hq
      subst hq
      refine absurd ?_ hqe
      refine List.mem_append_right _ ?_
      rw [List.mem_singleton]
      exact hcur.1
  · intro oid hoid d hd hdid
    rw [hout] at hd
    rcases List.mem_append.mp hoid with hoid | hoid
    · rcases horigin d hd with ⟨q, hq, hid, hkind, hres, _, _⟩ |
        ⟨hfr, _, _, _, _, _⟩
      · rw [hfunc0] at hq
        have hqid : q.id = oid := by
          rw [← hid]
          exact hdid
        obtain ⟨⟨c0, hgen⟩, huse⟩ := hinv.eclean oid hoid q hq hqid
        refine ⟨⟨c0, by rw [hkind]; exact hgen⟩, ?_⟩
        intro r hr
        show useEmpty ((t.done ++ t.news ++ [t.cur]) ++ t.rest) r.1 = true
        rw [hout]
        have hropres : r ∈ q.results := by
          rw [← hres]
          exact hr
        have hrlt : r.1 < s0.fresh := by
          rw [hfr0]
          exact (hinv.bound q hq).2.2 r hropres
        have := foldResults_useEmpty_stable op.loc (op.results.zip rcs)
          s0 r.1 hrlt (by rw [hfunc0]; exact huse r hropres)
        rw [← ht] at this
        exact this
      · rw [hfr0] at hfr
        have hlt := hinv.teB oid hoid
        rw [← hdid] at hlt
        exact absurd (Nat.lt_of_le_of_lt hfr hlt) (Nat.lt_irrefl _)
    · rw [List.mem_singleton] at hoid
      subst hoid
      rcases horigin d hd with ⟨q, hq, hid, hkind, hres, _, _⟩ |
        ⟨hfr, _, _, _, _, _⟩
      · rw [hfunc0] at hq
        have hqid : q.id = op.id := by
          rw [← hid]
          exact hdid
        have hqop : q = op := eq_of_mem_id hinv.ids hq hopmem hqid
        rw [hqop] at hkind hres
        refine ⟨⟨code, by rw [hkind]; exact hk⟩, ?_⟩
        intro r hr
        show useEmpty ((t.done ++ t.news ++ [t.cur]) ++ t.rest) r.1 = true
        rw [hout]
        have hropres : r ∈ op.results := by
          rw [← hres]
          exact hr
        have hrlt : r.1 < s0.fresh := by
          rw [hfr0]
          exact hopbound.2.2 r hropres
        by_cases hue : useEmpty s0.func r.1 = true
        · have := foldResults_useEmpty_stable op.loc (op.results.zip rcs)
            s0 r.1 hrlt hue
          rw [← ht] at this
          exact this
        · obtain ⟨b, hzb⟩ := exists_zip_right ha.symm r hropres
          have hmapfst : (op.results.zip rcs).map Prod.fst = op.results :=
            List.map_fst_zip _ _ (Nat.le_of_eq ha.symm)
          have hpairs_lt : ∀ p ∈ op.results.zip rcs, p.1.1 < s0.fresh := by
            intro p hp
            rw [hfr0]
            exact hopbound.2.2 p.1 (List.of_mem_zip hp).1
          have hpairs_nd :
              ((op.results.zip rcs).map (fun p => p.1.1)).Nodup := by
            have hcomp : (op.results.zip rcs).map (fun p => p.1.1) =
                ((op.results.zip rcs).map Prod.fst).map Prod.fst := by
              rw [List.map_map]
              rfl
            rw [hcomp, hmapfst]
            exact hinv.nres op hopmem
          obtain ⟨v, cop, _, _, _, _, _, _, hueT, _⟩ :=
            foldResults_main op.loc (op.results.zip rcs) s0 hb0
              hpairs_lt hpairs_nd (r, b) hzb (Bool.eq_false_iff.mpr hue)
          rw [← ht] at hueT
          exact hueT
      · rw [hfr0] at hfr
        have hlt := hopbound.1
        rw [← hdid] at hlt
        exact absurd (Nat.lt_of_le_of_lt hfr hlt) (Nat.lt_irrefl _)
  · intro c hc d hd hdef
    rw [hout] at hd
    show d.isCst = true
    have hecsn := foldResults_ecs_new op.loc (op.results.zip rcs) s0 c
    rw [← ht] at hecsn
    rcases hecsn hc with hcold | hcge
    · rw [hecs0] at hcold
      rcases horigin d hd with ⟨q, hq, _, hkind, hres, _, _⟩ |
        ⟨_, _, hcst, _, _, _⟩
      · rw [hfunc0] at hq
        have hqdef : q.defines c = true := by
          rw [← defines_congr hres]
          exact hdef
        have := hinv.ecsDef c hcold q hq hqdef
        rw [isCst_congr hkind]
        exact this
      · exact hcst
    · rw [hfr0] at hcge
      rcases horigin d hd with ⟨q, hq, _, _, hres, _, _⟩ |
        ⟨_, _, hcst, _, _, _⟩
      · have hqdef : q.defines c = true := by
          rw [← defines_congr hres]
          exact hdef
        obtain ⟨r2, hr2, hr2v⟩ := List.mem_map.mp (defines_iff.mp hqdef)
        have hlt := (hb0 q hq).2.2 r2 hr2
        rw [hr2v, hfr0] at hlt
        exact absurd (Nat.lt_of_le_of_lt hcge hlt) (Nat.lt_irrefl _)
      · exact hcst

end CF

namespace CF

theorem foldOperation_winv {fold : FoldFn} {s : PassState} {op : Op}
    {rest : Func} {s' : PassState} {rest' : Func}
    (h : foldOperation fold s op rest = some (s', rest'))
    (hinv : WInv fold s (op :: rest)) : WInv fold s' rest' := by
  cases hk : op.kind with
  | constant a =>
      rw [foldOperation_constant fold s rest hk] at h
      cases h
      have heq : (s.done ++ [op]) ++ rest = s.done ++ op :: rest := by simp
      refine ⟨?_, ?_, ?_, ?_, ?_, ?_, ?_, ?_, ?_, ?_, ?_⟩
      · show funcBound ((s.done ++ [op]) ++ rest) s.fresh
        rw [heq]
        exact hinv.bound
      · show DBU ((s.done ++ [op]) ++ rest)
        rw [heq]
        exact hinv.dbu
      · show NodupIds ((s.done ++ [op]) ++ rest)
        rw [heq]
        exact hinv.ids
      · show UniqueDefs ((s.done ++ [op]) ++ rest)
        rw [heq]
        exact hinv.udefs
      · show NodupResults ((s.done ++ [op]) ++ rest)
        rw [heq]
        exact hinv.nres
      · show ConstantsWF ((s.done ++ [op]) ++ rest)
        rw [heq]
        exact hinv.cwf
      · exact hinv.teB
      · intro c hc hcst
        rcases List.mem_append.mp hc with hc | hc
        · exact List.mem_append_left _ (hinv.reg c hc hcst)
        · rw [List.mem_singleton] at hc
          subst hc
          exact List.mem_append_right _ (List.mem_singleton.mpr rfl)
      · intro q hq code hqk hqe
        show fold code (operandConstants ((s.done ++ [op]) ++ rest) q) = none
        rw [heq]
        rcases List.mem_append.mp hq with hq | hq
        · exact hinv.declined q hq code hqk hqe
        · rw [List.mem_singleton] at hq
          subst hq
          rw [hk] at hqk
          cases hqk
      · intro oid hoid d hd hdid
        rw [heq] at hd
        obtain ⟨hgen, huse⟩ := hinv.eclean oid hoid d hd hdid
        refine ⟨hgen, ?_⟩
        intro r hr
        show useEmpty ((s.done ++ [op]) ++ rest) r.1 = true
        rw [heq]
        exact huse r hr
      · intro c hc d hd hdef
        rw [heq] at hd
        rcases List.mem_append.mp hc with hc | hc
        · exact hinv.ecsDef c hc d hd hdef
        · rw [List.mem_singleton] at hc
          subst hc
          have hopmem : op ∈ s.done ++ op :: rest :=
            List.mem_append_right _ (List.mem_cons_self _ _)
          have hopcst : op.isCst = true := isCst_of_constant hk
          obtain ⟨hops0, hlen1⟩ := hinv.cwf op hopmem hopcst
          obtain ⟨w, t0, hshape, hcr⟩ := cst_results_shape hlen1
          have hdw : d.defines w = true := by
            rw [← hcr]
            exact hdef
          have hidq : op.id = d.id := by
            refine hinv.udefs op hopmem d hd (w, t0) ?_ hdw
            rw [hshape]
            exact List.mem_singleton.mpr rfl
          have hdop : op = d := eq_of_mem_id hinv.ids hopmem hd hidq
          rw [← hdop]
          exact hopcst
  | generic code0 =>
      cases hfold : fold code0 (operandConstants (s.done ++ op :: rest) op) with
      | none =>
          rw [foldOperation_decline hk hfold] at h
          cases h
          have heq : (s.done ++ [op]) ++ rest = s.done ++ op :: rest := by simp
          refine ⟨?_, ?_, ?_, ?_, ?_, ?_, ?_, ?_, ?_, ?_, ?_⟩
          · show funcBound ((s.done ++ [op]) ++ rest) s.fresh
            rw [heq]
            exact hinv.bound
          · show DBU ((s.done ++ [op]) ++ rest)
            rw [heq]
            exact hinv.dbu
          · show NodupIds ((s.done ++ [op]) ++ rest)
            rw [heq]
            exact hinv.ids
          · show UniqueDefs ((s.done ++ [op]) ++ rest)
            rw [heq]
            exact hinv.udefs
          · show NodupResults ((s.done ++ [op]) ++ rest)
            rw [heq]
            exact hinv.nres
          · show ConstantsWF ((s.done ++ [op]) ++ rest)
            rw [heq]
            exact hinv.cwf
          · exact hinv.teB
          · intro c hc hcst
            rcases List.mem_append.mp hc with hc | hc
            · exact hinv.reg c hc hcst
            · rw [List.mem_singleton] at hc
              subst hc
              rw [not_isCst_of_generic hk] at hcst
              cases hcst
          · intro q hq code hqk hqe
            show fold code (operandConstants ((s.done ++ [op]) ++ rest) q) =
              none
            rw [heq]
            rcases List.mem_append.mp hq with hq | hq
            · exact hinv.declined q hq code hqk hqe
            · rw [List.mem_singleton] at hq
              subst hq
              rw [hk] at hqk
              cases hqk
              exact hfold
          · intro oid hoid d hd hdid
            rw [heq] at hd
            obtain ⟨hgen, huse⟩ := hinv.eclean oid hoid d hd hdid
            refine ⟨hgen, ?_⟩
            intro r hr
            show useEmpty ((s.done ++ [op]) ++ rest) r.1 = true
            rw [heq]
            exact huse r hr
          · intro c hc d hd hdef
            rw [heq] at hd
            exact hinv.ecsDef c hc d hd hdef
      | some rcs =>
          by_cases ha : rcs.length = op.results.length
          · rw [foldOperation_fold hk hfold ha] at h
            cases h
            exact winv_fold_case _ _ hk hfold ha hinv rfl rfl
          · rw [foldOperation_arity_fatal hk hfold ha] at h
            cases h

theorem walkAux_winv (fold : FoldFn) :
    ∀ fuel (s : PassState) (rest : Func) (s' : PassState),
      walkAux fold fuel s rest = some s' →
      WInv fold s rest → WInv fold s' [] := by
  intro fuel
  induction fuel with
  | zero =>
      intro s rest s' h hinv
      cases rest with
      | nil =>
          cases h
          exact hinv
      | cons op rest2 => cases h
  | succ fuel ih =>
      intro s rest s' h hinv
      cases rest with
      | nil =>
          cases h
          exact hinv
      | cons op rest2 =>
          rw [walkAux] at h
          cases hfo : foldOperation fold s op rest2 with
          | none =>
              rw [hfo] at h
              cases h
          | some out =>
              rw [hfo] at h
              exact ih out.1 out.2 s' h (foldOperation_winv hfo hinv)

theorem foldOperation_useEmpty {fold : FoldFn} {s : PassState} {op : Op}
    {rest : Func} {s' : PassState} {rest' : Func} {v : ValueId}
    (h : foldOperation fold s op rest = some (s', rest'))
    (hv : v < s.fresh) (hu : useEmpty (s.done ++ op :: rest) v = true) :
    v < s'.fresh ∧ useEmpty (s'.done ++ rest') v = true := by
  cases hk : op.kind with
  | constant a =>
      rw [foldOperation_constant fold s rest hk] at h
      cases h
      refine ⟨hv, ?_⟩
      show useEmpty ((s.done ++ [op]) ++ rest) v = true
      rw [show (s.done ++ [op]) ++ rest = s.done ++ op :: rest by simp]
      exact hu
  | generic code =>
      cases hfold : fold code (operandConstants (s.done ++ op :: rest) op) with
      | none =>
          rw [foldOperation_decline hk hfold] at h
          cases h
          refine ⟨hv, ?_⟩
          show useEmpty ((s.done ++ [op]) ++ rest) v = true
          rw [show (s.done ++ [op]) ++ rest = s.done ++ op :: rest by simp]
          exact hu
      | some rcs =>
          by_cases ha : rcs.length = op.results.length
          · rw [foldOperation_fold hk hfold ha] at h
            cases h
            have hfunc0 : ({ done := s.done, news := [], cur := op,
                             rest := rest, ecs := s.existingConstants,
                             fresh := s.fresh } : VisitState).func =
                s.done ++ op :: rest := by
              simp [VisitState.func]
            constructor
            · exact Nat.lt_of_lt_of_le hv
                (foldResults_fresh_le op.loc (op.results.zip rcs)
                  { done := s.done, news := [], cur := op, rest := rest,
                    ecs := s.existingConstants, fresh := s.fresh })
            · show useEmpty
                (((foldResults op.loc (op.results.zip rcs)
                  { done := s.done, news := [], cur := op, rest := rest,
                    ecs := s.existingConstants, fresh := s.fresh }).done ++
                  (foldResults op.loc (op.results.zip rcs)
                    { done := s.done, news := [], cur := op, rest := rest,
                      ecs := s.existingConstants, fresh := s.fresh }).news ++
                  [(foldResults op.loc (op.results.zip rcs)
                    { done := s.done, news := [], cur := op, rest := rest,
                      ecs := s.existingConstants, fresh := s.fresh }).cur]) ++
                  (foldResults op.loc (op.results.zip rcs)
                    { done := s.done, news := [], cur := op, rest := rest,
                      ecs := s.existingConstants,
                      fresh := s.fresh }).rest) v = true
              rw [out_eq_func]
              exact foldResults_useEmpty_stable op.loc (op.results.zip rcs)
                _ v hv (by rw [hfunc0]; exact hu)
          · rw [foldOperation_arity_fatal hk hfold ha] at h
            cases h

theorem walkAux_useEmpty (fold : FoldFn) {v : ValueId} :
    ∀ fuel (s : PassState) (rest : Func) (s' : PassState),
      walkAux fold fuel s rest = some s' → v < s.fresh →
      useEmpty (s.done ++ rest) v = true →
      v < s'.fresh ∧ useEmpty s'.done v = true := by
  intro fuel
  induction fuel with
  | zero =>
      intro s rest s' h hv hu
      cases rest with
      | nil =>
          cases h
          refine ⟨hv, ?_⟩
          rw [List.append_nil] at hu
          exact hu
      | cons op rest2 => cases h
  | succ fuel ih =>
      intro s rest s' h hv hu
      cases rest with
      | nil =>
          cases h
          refine ⟨hv, ?_⟩
          rw [List.append_nil] at hu
          exact hu
      | cons op rest2 =>
          rw [walkAux] at h
          cases hfo : foldOperation fold s op rest2 with
          | none =>
              rw [hfo] at h
              cases h
          | some out =>
              rw [hfo] at h
              obtain ⟨hv1, hu1⟩ := foldOperation_useEmpty hfo hv hu
              exact ih out.1 out.2 s' h hv1 hu1

theorem walkAux_noop (fold : FoldFn) (g : Func)
    (hdecl : ∀ q ∈ g, ∀ code, q.kind = .generic code →
      fold code (operandConstants g q) = none) :
    ∀ fuel (rest₂ : Func) (s₂ : PassState),
      fuel = rest₂.length → s₂.done ++ rest₂ = g →
      ∃ s' : PassState, walkAux fold fuel s₂ rest₂ = some s' ∧
        s'.done = g ∧ s'.toErase = s₂.toErase ∧
        ∀ c ∈ s'.existingConstants, c ∈ s₂.existingConstants ∨
          ∃ d ∈ g, d.isCst = true ∧ constantResult d = c := by
  intro fuel
  induction fuel with
  | zero =>
      intro rest₂ s₂ hlen hg
      cases rest₂ with
      | nil =>
          refine ⟨s₂, rfl, ?_, rfl, fun c hc => Or.inl hc⟩
          rw [← hg]
          simp
      | cons op rest3 => simp at hlen
  | succ fuel ih =>
      intro rest₂ s₂ hlen hg
      cases rest₂ with
      | nil => simp at hlen
      | cons op rest3 =>
          have hlen3 : fuel = rest3.length := by simpa using hlen
          have hop : op ∈ g := by
            rw [← hg]
            exact List.mem_append_right _ (List.mem_cons_self _ _)
          cases hk : op.kind with
          | constant a =>
              obtain ⟨s', hw, hdone, hte, hecs⟩ := ih rest3
                ({ s₂ with
                     done := s₂.done ++ [op]
                     existingConstants :=
                       s₂.existingConstants ++ [constantResult op] })
                hlen3 (by rw [← hg]; simp)
              refine ⟨s', ?_, hdone, hte, ?_⟩
              · rw [walkAux, foldOperation_constant fold s₂ rest3 hk]
                exact hw
              · intro c hc
                rcases hecs c hc with hc2 | hc2
                · rcases List.mem_append.mp hc2 with hc3 | hc3
                  · exact Or.inl hc3
                  · rw [List.mem_singleton] at hc3
                    exact Or.inr ⟨op, hop, isCst_of_constant hk, hc3.symm⟩
                · exact Or.inr hc2
          | generic code =>
              have hnone : fold code
                  (operandConstants (s₂.done ++ op :: rest3) op) = none := by
                rw [hg]
                exact hdecl op hop code hk
              obtain ⟨s', hw, hdone, hte, hecs⟩ := ih rest3
                ({ s₂ with done := s₂.done ++ [op] })
                hlen3 (by rw [← hg]; simp)
              refine ⟨s', ?_, hdone, hte, fun c hc => hecs c hc⟩
              rw [walkAux, foldOperation_decline hk hnone]
              exact hw

end CF

/-- C5.  Dead-constant removal: a ConstantOp whose result value has no uses
before the pass begins is registered in existingConstants during the walk;
its visit never consults the fold capability (foldOperation on it yields
the same outcome for every capability) and never schedules it in toErase,
so it survives the erase sweep; and the post-traversal dead-constant sweep
erases it, so no Operation with its identity remains in the output body. -/
theorem dead_constant_removal (fold : CF.FoldFn) (f : CF.Func) (n : Nat)
    (hwf : CF.WF f n) (cop : CF.Op) (a : CF.Attr) (v : CF.ValueId) (t : CF.Ty)
    (hmem : cop ∈ f) (hkind : cop.kind = .constant a)
    (hops : cop.operands = []) (hres : cop.results = [(v, t)])
    (hdead : CF.useEmpty f v = true)
    (f2 : CF.Func) (s1 : CF.PassState)
    (hrun : CF.runOnFunction fold f n = some (f2, s1)) :
    v ∈ s1.existingConstants ∧
    cop.id ∉ s1.toErase ∧
    (∀ fold2 : CF.FoldFn, ∀ st : CF.PassState, ∀ rst : CF.Func,
      CF.foldOperation fold2 st cop rst = CF.foldOperation fold st cop rst) ∧
    cop ∈ s1.toErase.foldl CF.eraseOp s1.done ∧
    (∀ q ∈ f2, q.id ≠ cop.id) := by
  unfold CF.runOnFunction at hrun
  cases hwk : CF.walk fold
      { done := [], existingConstants := [], toErase := [], fresh := n } f with
  | none =>
      rw [hwk] at hrun
      cases hrun
  | some s =>
      rw [hwk] at hrun
      cases hrun
      have hw' : CF.walkAux fold f.length
          { done := [], existingConstants := [], toErase := [], fresh := n }
          f = some s1 := hwk
      have hinv0 : CF.WInv fold
          { done := [], existingConstants := [], toErase := [], fresh := n }
          f := by
        refine ⟨?_, ?_, ?_, ?_, ?_, ?_, ?_, ?_, ?_, ?_, ?_⟩
        · exact hwf.bound
        · exact hwf.dbu
        · exact hwf.ids
        · exact hwf.udefs
        · exact hwf.nres
        · exact hwf.cwf
        · intro oid h
          exact absurd h (List.not_mem_nil _)
        · intro c hc _
          exact absurd hc (List.not_mem_nil _)
        · intro q hq _ _ _
          exact absurd hq (List.not_mem_nil _)
        · intro oid hoid _ _ _
          exact absurd hoid (List.not_mem_nil _)
        · intro c hc _ _ _
          exact absurd hc (List.not_mem_nil _)
      have hinv1 : CF.WInv fold s1 [] :=
        CF.walkAux_winv fold f.length _ f s1 hw' hinv0
      have hIds : CF.NodupIds s1.done := by
        have := hinv1.ids
        rwa [List.append_nil] at this
      have hUd : CF.UniqueDefs s1.done := by
        have := hinv1.udefs
        rwa [List.append_nil] at this
      have hEclean := hinv1.eclean
      simp only [List.append_nil] at hEclean
      have hReg := hinv1.reg
      obtain ⟨q', hq', hqid, _, _, _, hz⟩ :=
        CF.walkAux_preserves fold f.length _ f s1 hw' cop (by simpa using hmem)
      have hcopD : cop ∈ s1.done := by
        have hq'c : q' = cop := hz hops
        rw [← hq'c]
        exact hq'
      have hvn : v < n :=
        (hwf.bound cop hmem).2.2 (v, t)
          (by rw [hres]; exact List.mem_singleton.mpr rfl)
      obtain ⟨hvfresh, hueD⟩ :=
        CF.walkAux_useEmpty fold f.length _ f s1 hw' hvn (by simpa using hdead)
      have hvecs : v ∈ s1.existingConstants := by
        have := hReg cop hcopD (CF.isCst_of_constant hkind)
        rwa [CF.constantResult_eq hres] at this
      have hnotTE : cop.id ∉ s1.toErase := by
        intro hmemTE
        obtain ⟨⟨c0, hgen⟩, _⟩ := hEclean cop.id hmemTE cop hcopD rfl
        rw [hkind] at hgen
        cases hgen
      have hcopE : cop ∈ s1.toErase.foldl CF.eraseOp s1.done := by
        refine CF.mem_foldl_eraseOp_of_not s1.toErase s1.done cop hcopD ?_
        intro oid hoid heq
        exact hnotTE (heq ▸ hoid)
      refine ⟨hvecs, hnotTE, ?_, hcopE, ?_⟩
      · intro fold2 st rst
        rw [CF.foldOperation_constant fold2 st rst hkind,
          CF.foldOperation_constant fold st rst hkind]
      · intro q hq
        exact CF.foldl_sweep_removes s1.existingConstants
          (s1.toErase.foldl CF.eraseOp s1.done)
          (CF.nodupIds_sublist (CF.foldl_eraseOp_sublist s1.toErase s1.done) hIds)
          (CF.uniqueDefs_subset
            (fun x hx => CF.mem_foldl_eraseOp_subset s1.toErase s1.done x hx) hUd)
          hcopE (CF.defines_of_results hres)
          (CF.useEmpty_sublist
            (fun x hx => CF.mem_foldl_eraseOp_subset s1.toErase s1.done x hx)
            hueD)
          hvecs q hq

/-- Witness for C5 on the dead-constant scenario. -/
theorem dead_constant_removal_witness :
    CF.WF [EX.dcConst] 200 ∧
    CF.useEmpty [EX.dcConst] 100 = true ∧
    (100 ∈ EX.dcS1.existingConstants ∧
     EX.dcConst.id ∉ EX.dcS1.toErase ∧
     (∀ fold2 : CF.FoldFn, ∀ st : CF.PassState, ∀ rst : CF.Func,
       CF.foldOperation fold2 st EX.dcConst rst =
         CF.foldOperation EX.addFold st EX.dcConst rst) ∧
     EX.dcConst ∈ EX.dcS1.toErase.foldl CF.eraseOp EX.dcS1.done ∧
     (∀ q ∈ ([] : CF.Func), q.id ≠ EX.dcConst.id)) :=
  ⟨CF.WF.mk (by decide) (by decide) (by decide) (by decide) (by decide)
    (by decide),
   by decide,
   dead_constant_removal EX.addFold [EX.dcConst] 200
     (CF.WF.mk (by decide) (by decide) (by decide) (by decide) (by decide)
       (by decide))
     EX.dcConst 9 100 7 (by decide) rfl rfl rfl (by decide) [] EX.dcS1
     (by decide)⟩

/-- C8.  Two-run convergence: on a well-formed body, a second run of the
pass on the output of a successful first run is a no-op (it returns the
same body unchanged, for any fresh-id seed), so the pass converges within
at most two runs; in particular a second run on the output of the
fully-folded straight-line scenario changes nothing. -/
theorem two_run_convergence (fold : CF.FoldFn) (f : CF.Func) (n : Nat)
    (hwf : CF.WF f n) (f1 : CF.Func) (s1 : CF.PassState)
    (h1 : CF.runOnFunction fold f n = some (f1, s1)) (m : Nat) :
    ∃ s2 : CF.PassState, CF.runOnFunction fold f1 m = some (f1, s2) := by
  unfold CF.runOnFunction at h1
  cases hwk : CF.walk fold
      { done := [], existingConstants := [], toErase := [], fresh := n } f with
  | none =>
      rw [hwk] at h1
      cases h1
  | some s =>
      rw [hwk] at h1
      cases h1
      set gE := s1.toErase.foldl CF.eraseOp s1.done with hgEdef
      set f1b := s1.existingConstants.foldl CF.sweepConstant gE with hf1bdef
      have hw' : CF.walkAux fold f.length
          { done := [], existingConstants := [], toErase := [], fresh := n }
          f = some s1 := hwk
      have hinv0 : CF.WInv fold
          { done := [], existingConstants := [], toErase := [], fresh := n }
          f := by
        refine ⟨?_, ?_, ?_, ?_, ?_, ?_, ?_, ?_, ?_, ?_, ?_⟩
        · exact hwf.bound
        · exact hwf.dbu
        · exact hwf.ids
        · exact hwf.udefs
        · exact hwf.nres
        · exact hwf.cwf
        · intro oid h
          exact absurd h (List.not_mem_nil _)
        · intro c hc _
          exact absurd hc (List.not_mem_nil _)
        · intro q hq _ _ _
          exact absurd hq (List.not_mem_nil _)
        · intro oid hoid _ _ _
          exact absurd hoid (List.not_mem_nil _)
        · intro c hc _ _ _
          exact absurd hc (List.not_mem_nil _)
      have hinv1 : CF.WInv fold s1 [] :=
        CF.walkAux_winv fold f.length _ f s1 hw' hinv0
      have hIds : CF.NodupIds s1.done := by
        have := hinv1.ids
        rwa [List.append_nil] at this
      have hUd : CF.UniqueDefs s1.done := by
        have := hinv1.udefs
        rwa [List.append_nil] at this
      have hCwf : CF.ConstantsWF s1.done := by
        have := hinv1.cwf
        rwa [List.append_nil] at this
      have hReg := hinv1.reg
      have hDecl := hinv1.declined
      simp only [List.append_nil] at hDecl
      have hEclean := hinv1.eclean
      simp only [List.append_nil] at hEclean
      have hEcsDef := hinv1.ecsDef
      simp only [List.append_nil] at hEcsDef
      have hsubE : ∀ x ∈ gE, x ∈ s1.done :=
        fun x hx => CF.mem_foldl_eraseOp_subset s1.toErase s1.done x hx
      have hnodE : CF.NodupIds gE :=
        CF.nodupIds_sublist (CF.foldl_eraseOp_sublist s1.toErase s1.done) hIds
      have hudE : CF.UniqueDefs gE := CF.uniqueDefs_subset hsubE hUd
      have hzeroE : ∀ c ∈ s1.existingConstants, ∀ e ∈ gE,
          e.defines c = true → e.operands = [] := by
        intro c hc e he hdef
        exact (hCwf e (hsubE e he) (hEcsDef c hc e (hsubE e he) hdef)).1
      have hsub1 : ∀ x ∈ f1b, x ∈ gE :=
        fun x hx => (CF.foldl_sweep_sublist s1.existingConstants gE).subset hx
      have hdecl1 : ∀ q ∈ f1b, ∀ code, q.kind = .generic code →
          fold code (CF.operandConstants f1b q) = none := by
        intro q hq code hqk
        have hqE : q ∈ gE := hsub1 q hq
        have hqD : q ∈ s1.done := hsubE q hqE
        have hqTE : q.id ∉ s1.toErase := by
          intro hmemTE
          exact CF.eraseAll_not_mem s1.toErase hmemTE s1.done q hqE rfl
        have hnoneq := hDecl q hqD code hqk hqTE
        have hoc : CF.operandConstants f1b q = CF.operandConstants s1.done q := by
          unfold CF.operandConstants
          refine List.map_congr_left ?_
          intro v hv
          cases hgd : CF.getDefiningOp s1.done v with
          | none =>
              have hnone1 : CF.getDefiningOp f1b v = none := by
                refine CF.getDefiningOp_none_iff.mpr ?_
                intro e he
                exact CF.getDefiningOp_none_iff.mp hgd e (hsubE e (hsub1 e he))
              unfold CF.operandConstant
              rw [hgd, hnone1]
          | some d =>
              obtain ⟨hdD, hdd⟩ := CF.getDefiningOp_mem hgd
              have hvused : CF.useEmpty s1.done v = false :=
                CF.useEmpty_false_of_user hqD hv
              have hdTE : d.id ∉ s1.toErase := by
                intro hmemTE
                obtain ⟨_, huse⟩ := hEclean d.id hmemTE d hdD rfl
                obtain ⟨r, hr, hrv⟩ := List.mem_map.mp (CF.defines_iff.mp hdd)
                have hx := huse r hr
                rw [hrv] at hx
                rw [hx] at hvused
                cases hvused
              have hdE : d ∈ gE :=
                CF.mem_foldl_eraseOp_of_not s1.toErase s1.done d hdD
                  (fun oid hoid heq => hdTE (heq ▸ hoid))
              have hstar : ∀ c ∈ s1.existingConstants, ∀ e ∈ gE,
                  e.defines c = true → e.defines v = true → c = v := by
                intro c hc e he hec hev
                have heD : e ∈ s1.done := hsubE e he
                have hcst := hEcsDef c hc e heD hec
                obtain ⟨w, t0, hshape, hcr⟩ :=
                  CF.cst_results_shape (hCwf e heD hcst).2
                rw [CF.defines_eq_of_single hshape hec,
                  CF.defines_eq_of_single hshape hev]
              obtain ⟨hdF, _⟩ := CF.foldl_sweep_definer_stable
                s1.existingConstants gE hnodE hzeroE hstar hdE hdd hqE hv
              have huniq : ∀ e ∈ f1b, e.defines v = true → e = d := by
                intro e he hev
                have heD : e ∈ s1.done := hsubE e (hsub1 e he)
                obtain ⟨r, hr, hrv⟩ := List.mem_map.mp (CF.defines_iff.mp hdd)
                have hid : d.id = e.id :=
                  hUd d hdD e heD r hr (by rw [hrv]; exact hev)
                exact CF.eq_of_mem_id hIds heD hdD hid.symm
              have hgd1 : CF.getDefiningOp f1b v = some d :=
                CF.getDefiningOp_eq_of_unique f1b hdF hdd huniq
              unfold CF.operandConstant
              rw [hgd, hgd1]
        rw [hoc]
        exact hnoneq
      obtain ⟨s2, hw2, hdone2, hte2, hecs2⟩ := CF.walkAux_noop fold f1b hdecl1
        f1b.length f1b
        { done := [], existingConstants := [], toErase := [], fresh := m }
        rfl rfl
      have hNoUse : ∀ c ∈ s2.existingConstants,
          CF.useEmpty f1b c = false := by
        intro c hc
        rcases hecs2 c hc with hc0 | ⟨d, hd1, hdcst, hdc⟩
        · exact absurd hc0 (List.not_mem_nil _)
        · have hdD : d ∈ s1.done := hsubE d (hsub1 d hd1)
          obtain ⟨w, t0, hshape, hcr⟩ :=
            CF.cst_results_shape (hCwf d hdD hdcst).2
          have hdef : d.defines c = true := by
            rw [← hdc, hcr]
            exact CF.defines_of_results hshape
          have hcmem : c ∈ s1.existingConstants := by
            rw [← hdc]
            exact hReg d hdD hdcst
          rcases CF.foldl_sweep_complete s1.existingConstants gE hnodE hudE
            hzeroE c hcmem with hleft | hright
          · exact hleft
          · have hcontra := hright d hd1
            rw [hdef] at hcontra
            cases hcontra
      refine ⟨s2, ?_⟩
      unfold CF.runOnFunction
      have hw2' : CF.walk fold
          { done := [], existingConstants := [], toErase := [], fresh := m }
          f1b = some s2 := hw2
      rw [hw2']
      have hE2 : s2.toErase.foldl CF.eraseOp s2.done = f1b := by
        rw [hte2]
        exact hdone2
      show some (s2.existingConstants.foldl CF.sweepConstant
        (s2.toErase.foldl CF.eraseOp s2.done), s2) = some (f1b, s2)
      rw [hE2, CF.foldl_sweep_noop s2.existingConstants f1b hNoUse]

/-- Witness for C8 on scenario 1: the second run returns the first run's
output unchanged. -/
theorem two_run_convergence_witness :
    CF.WF EX.exFunc 200 ∧
    CF.runOnFunction EX.addFold EX.exFunc 200 =
      some (EX.exOut1, EX.exWalkS) ∧
    ∃ s2 : CF.PassState, CF.runOnFunction EX.addFold EX.exOut1 300 =
      some (EX.exOut1, s2) :=
  ⟨CF.WF.mk (by decide) (by decide) (by decide) (by decide) (by decide)
    (by decide),
   by decide,
   two_run_convergence EX.addFold EX.exFunc 200
     (CF.WF.mk (by decide) (by decide) (by decide) (by decide) (by decide)
       (by decide))
     EX.exOut1 EX.exWalkS (by decide) 300⟩
